import Mathlib

/-!
Verification of spec claims for the `aoc2022` Rust repository.

Shallow embedding conventions:
* Rust `u32`/`u64`/`usize` values are modelled as `Nat`.  Wherever the source
  performs arithmetic whose overflow behaviour matters the embedding either
  reproduces the wrap explicitly (`i8` arithmetic in day 18 uses `i8wrap`) or a
  comment records why the `Nat` arithmetic agrees with the machine arithmetic
  on real program states.
* Rust `i8`/`i32`/`i64` values are modelled as `Int` (with explicit wrapping
  where the program could overflow).
* Partial operations (indexing, `unwrap`, `expect`, parse errors, asserts)
  are modelled with `Option`: `none` is an aborted (panicking) execution.
-/

namespace Day11

/-- Embedding of `struct Modular { remainder: u32, divisor: u32 }` from
`src/bin/11.rs`.  On `u32` inhabitants all source operations go through `u64`
intermediates and never overflow, so plain `Nat` arithmetic is exact. -/
structure Modular where
  remainder : Nat
  divisor : Nat
deriving DecidableEq, Repr

/-- `Modular::new` from `src/bin/11.rs`: reduces only when `remainder > divisor`
(note the strict inequality: `remainder == divisor` is stored unchanged). -/
def Modular.new (remainder divisor : Nat) : Modular :=
  if remainder > divisor then
    { remainder := remainder % divisor, divisor := divisor }
  else
    { remainder := remainder, divisor := divisor }

/-- `u32::to_modular` from `src/bin/11.rs`. -/
def to_modular (x : Nat) (divisor : Nat) : Modular :=
  Modular.new x divisor

/-- `Modular::get_remainder` from `src/bin/11.rs`. -/
def Modular.get_remainder (m : Modular) : Nat :=
  m.remainder

/-- `impl Add for Modular` from `src/bin/11.rs`.  The source asserts
`self.divisor == rhs.divisor`; theorems about `add` therefore carry that
equality as a hypothesis.  The `u64` intermediate sum of two `u32` remainders
cannot overflow, so `Nat` addition is exact. -/
def Modular.add (a b : Modular) : Modular :=
  { remainder := (a.remainder + b.remainder) % a.divisor, divisor := a.divisor }

/-- `impl Mul for Modular` from `src/bin/11.rs`.  Same conventions as
`Modular.add`; the `u64` product of two `u32` remainders cannot overflow. -/
def Modular.mul (a b : Modular) : Modular :=
  { remainder := (a.remainder * b.remainder) % a.divisor, divisor := a.divisor }

/-- Values reachable inside `play_game` (with the part-two identity
`worry_update`): `Reach L m w` states that the stored value `m` arises from
true (unreduced) worry level `w` by converting initial values with
`to_modular (·, L)` and combining with the `Modular` `Add`/`Mul` operators on
operands of equal divisors.  The true worry level evolves by the corresponding
exact `Nat` operations. -/
inductive Reach (L : Nat) : Modular → Nat → Prop
  | base (a : Nat) : Reach L (to_modular a L) a
  | add {m₁ m₂ : Modular} {w₁ w₂ : Nat} :
      Reach L m₁ w₁ → Reach L m₂ w₂ → Reach L (m₁.add m₂) (w₁ + w₂)
  | mul {m₁ m₂ : Modular} {w₁ w₂ : Nat} :
      Reach L m₁ w₁ → Reach L m₂ w₂ → Reach L (m₁.mul m₂) (w₁ * w₂)

theorem divisor_of_reach {L : Nat} {m : Modular} {w : Nat}
    (h : Reach L m w) : m.divisor = L := by
  induction h with
  | base a =>
      unfold to_modular Modular.new
      split <;> rfl
  | add _ _ ih₁ _ => simpa [Modular.add] using ih₁
  | mul _ _ ih₁ _ => simpa [Modular.mul] using ih₁

theorem remainder_congruent_of_reach {L : Nat} {m : Modular} {w : Nat}
    (h : Reach L m w) : m.remainder % L = w % L := by
  induction h with
  | base a =>
      unfold to_modular Modular.new
      split
      · exact Nat.mod_mod_of_dvd a dvd_rfl
      · rfl
  | @add m₁ m₂ w₁ w₂ h₁ h₂ ih₁ ih₂ =>
      have e₁ := divisor_of_reach h₁
      simp only [Modular.add, e₁]
      rw [Nat.mod_mod_of_dvd _ dvd_rfl, Nat.add_mod, ih₁, ih₂, ← Nat.add_mod]
  | @mul m₁ m₂ w₁ w₂ h₁ h₂ ih₁ ih₂ =>
      have e₁ := divisor_of_reach h₁
      simp only [Modular.mul, e₁]
      rw [Nat.mod_mod_of_dvd _ dvd_rfl, Nat.mul_mod, ih₁, ih₂, ← Nat.mul_mod]

end Day11

/-- C1: for `L > 0` and every stored value `m` reachable (via `to_modular`
conversion and `Modular` `Add`/`Mul` with equal divisors) from true worry level
`w`, the value keeps divisor `L`, its stored remainder is congruent to `w`
modulo `L`, and for every divisor `t` of `L` the `play_game` check
`get_remainder m % t == 0` holds iff `t` divides the true worry level `w`. -/
theorem day11_modular_tracks_divisibility {L : Nat} (hL : 0 < L)
    {m : Day11.Modular} {w : Nat} (h : Day11.Reach L m w) :
    m.divisor = L ∧ m.remainder % L = w % L ∧
      ∀ t : Nat, t ∣ L → (m.get_remainder % t = 0 ↔ w % t = 0) := by
  refine ⟨Day11.divisor_of_reach h, Day11.remainder_congruent_of_reach h, ?_⟩
  intro t ht
  have hcong : m.remainder % L = w % L := Day11.remainder_congruent_of_reach h
  have hmt : m.remainder % t = w % t := by
    have h1 : m.remainder % L % t = w % L % t := by rw [hcong]
    rwa [Nat.mod_mod_of_dvd _ ht, Nat.mod_mod_of_dvd _ ht] at h1
  unfold Day11.Modular.get_remainder
  rw [hmt]

/-- Witness for C1: with `L = 10`, the reachable value
`(to_modular 7 10).mul (to_modular 9 10)` tracking true worry `63`; its stored
remainder `3` is congruent to `63` mod `10` and agrees with `63` on
divisibility by `5`. -/
theorem day11_modular_tracks_divisibility_witness :
    (Day11.to_modular 7 10).mul (Day11.to_modular 9 10) =
        { remainder := 3, divisor := 10 } ∧
      ((Day11.to_modular 7 10).mul (Day11.to_modular 9 10)).divisor = 10 ∧
      ((Day11.to_modular 7 10).mul (Day11.to_modular 9 10)).remainder % 10 = 63 % 10 ∧
      ∀ t : Nat, t ∣ 10 →
        (((Day11.to_modular 7 10).mul (Day11.to_modular 9 10)).get_remainder % t = 0 ↔
          63 % t = 0) :=
  ⟨by decide,
    day11_modular_tracks_divisibility (by decide)
      (Day11.Reach.mul (Day11.Reach.base 7) (Day11.Reach.base 9))⟩

namespace Helpers

/-- Embedding of `struct Point` from `src/helpers.rs`. -/
structure Point where
  x : Nat
  y : Nat
deriving DecidableEq, Repr

/-- Embedding of `struct Grid<T>` from `src/helpers.rs`. -/
structure Grid (T : Type) where
  values : List T
  width : Nat

/-- `Grid::new` from `src/helpers.rs`: allocates `width * (height + 1)`
default cells. -/
def Grid.new (T : Type) [Inhabited T] (width height : Nat) : Grid T :=
  { values := List.replicate (width * (height + 1)) default, width := width }

/-- `Grid::point` from `src/helpers.rs`: indexes `values[width*y + x]`;
`none` models the out-of-bounds indexing panic. -/
def Grid.point (g : Grid T) (p : Point) : Option T :=
  g.values.get? (g.width * p.y + p.x)

/-- `Grid::point_mut` (used as a write) from `src/helpers.rs`: writing through
`point_mut` updates `values[width*y + x]`; the write panics exactly when the
index is out of bounds, which the theorems express as a bound on the index. -/
def Grid.point_set (g : Grid T) (p : Point) (v : T) : Grid T :=
  { g with values := g.values.set (g.width * p.y + p.x) v }

/-- `Grid::is_out_of_bounds` from `src/helpers.rs`. -/
def Grid.is_out_of_bounds (g : Grid T) (p : Point) : Bool :=
  decide (g.width * p.y + p.x ≥ g.values.length)

/-- `Grid::height` from `src/helpers.rs`. -/
def Grid.height (g : Grid T) : Nat :=
  g.values.length / g.width

end Helpers

/-- C4 counterexample: for the grid `Grid::new(2, 1)` and the point
`(x = 0, y = 1)`, the point lies outside the requested `2 × 1` rectangle
(`p.y ≥ height`), yet `is_out_of_bounds` returns `false`, refuting the claimed
equivalence. -/
theorem day_grid_bounds_claim_false :
    ¬ (((Helpers.Grid.new Nat 2 1).is_out_of_bounds { x := 0, y := 1 } = true) ↔
        (0 ≥ 2 ∨ 1 ≥ 1)) := by
  decide

/-- C4 (amended): for every grid built by `Grid::new(width, height)` with
`width > 0` and every point `p`, `is_out_of_bounds p` returns `true` exactly
when the flat index `width * p.y + p.x` is at least the allocated length
`width * (height + 1)`; and whenever that flat index is within the allocated
length, `point p` returns (without panicking) the backing element at flat
index `width * p.y + p.x`. -/
theorem day_grid_bounds_flat_index {T : Type} [Inhabited T]
    (width height : Nat) (hw : 0 < width) (p : Helpers.Point) :
    ((Helpers.Grid.new T width height).is_out_of_bounds p = true ↔
        width * p.y + p.x ≥ width * (height + 1)) ∧
      (width * p.y + p.x < width * (height + 1) →
        (Helpers.Grid.new T width height).point p =
          (Helpers.Grid.new T width height).values.get? (width * p.y + p.x) ∧
        ((Helpers.Grid.new T width height).point p).isSome = true) := by
  constructor
  · simp [Helpers.Grid.is_out_of_bounds, Helpers.Grid.new]
  · intro hlt
    refine ⟨rfl, ?_⟩
    simp [Helpers.Grid.point, Helpers.Grid.new, List.get?_eq_get, hlt]

/-- Witness for C4 (amended): instantiated at `Grid::new(2, 1)` and the point
`(x = 1, y = 2)`, whose flat index `5` is out of the allocated `4` cells. -/
theorem day_grid_bounds_flat_index_witness :
    ((Helpers.Grid.new Nat 2 1).is_out_of_bounds { x := 1, y := 2 } = true ↔
        2 * 2 + 1 ≥ 2 * (1 + 1)) ∧
      (2 * 2 + 1 < 2 * (1 + 1) →
        (Helpers.Grid.new Nat 2 1).point { x := 1, y := 2 } =
          (Helpers.Grid.new Nat 2 1).values.get? (2 * 2 + 1) ∧
        ((Helpers.Grid.new Nat 2 1).point { x := 1, y := 2 }).isSome = true) :=
  day_grid_bounds_flat_index 2 1 (by decide) { x := 1, y := 2 }

/-- C9: `Grid::new(width, h)` over-allocates one row: it allocates
`width * (h + 1)` backing cells, `height()` returns `h + 1`, and every point
with `y = h` and `x < width` is reported in bounds and can be read and written
without panicking (its flat index is within the backing array). -/
theorem day_grid_new_overallocates_row {T : Type} [Inhabited T]
    (width h : Nat) (hw : 0 < width) :
    (Helpers.Grid.new T width h).values.length = width * (h + 1) ∧
      (Helpers.Grid.new T width h).height = h + 1 ∧
      ∀ p : Helpers.Point, p.x < width → p.y = h →
        (Helpers.Grid.new T width h).is_out_of_bounds p = false ∧
        ((Helpers.Grid.new T width h).point p).isSome = true ∧
        width * p.y + p.x < (Helpers.Grid.new T width h).values.length := by
  have hlen : (Helpers.Grid.new T width h).values.length = width * (h + 1) := by
    simp [Helpers.Grid.new]
  have hwid : (Helpers.Grid.new T width h).width = width := rfl
  refine ⟨hlen, ?_, ?_⟩
  · simp only [Helpers.Grid.height, hlen, hwid]
    exact Nat.mul_div_cancel_left _ hw
  · intro p hx hy
    have hidx : width * p.y + p.x < width * (h + 1) := by
      subst hy
      calc width * p.y + p.x < width * p.y + width := by omega
        _ = width * (p.y + 1) := by ring
    refine ⟨?_, ?_, by simpa [hlen] using hidx⟩
    · simp only [Helpers.Grid.is_out_of_bounds, hlen, hwid, ge_iff_le,
        decide_eq_false_iff_not, not_le]
      exact hidx
    · simp [Helpers.Grid.point, Helpers.Grid.new, List.get?_eq_get, hidx]

/-- Witness for C9: instantiated at `Grid::new(3, 2)`: twelve cells are
allocated (`3 * (2 + 1) = 9`... evaluated concretely), `height()` is `3`, and
the point `(x = 2, y = 2)` one row past the requested height is in bounds. -/
theorem day_grid_new_overallocates_row_witness :
    (Helpers.Grid.new Nat 3 2).values.length = 3 * (2 + 1) ∧
      (Helpers.Grid.new Nat 3 2).height = 2 + 1 ∧
      ∀ p : Helpers.Point, p.x < 3 → p.y = 2 →
        (Helpers.Grid.new Nat 3 2).is_out_of_bounds p = false ∧
        ((Helpers.Grid.new Nat 3 2).point p).isSome = true ∧
        3 * p.y + p.x < (Helpers.Grid.new Nat 3 2).values.length :=
  day_grid_new_overallocates_row 3 2 (by decide)

namespace Day18

/-- Two's-complement wrap of an `Int` into the `i8` range `[-128, 127]`,
modelling Rust release-mode `i8` overflow in `src/bin/18.rs`. -/
def i8wrap (z : Int) : Int :=
  (z + 128) % 256 - 128

/-- Embedding of `struct Coord(i8, i8, i8)` from `src/bin/18.rs`. -/
@[ext]
structure Coord where
  x : Int
  y : Int
  z : Int
deriving DecidableEq, Repr

/-- `Coord::dot` from `src/bin/18.rs` (performed in `i32`, which is exact on
`i8`-ranged components). -/
def Coord.dot (a b : Coord) : Int :=
  a.x * b.x + a.y * b.y + a.z * b.z

/-- `impl Add for Coord` from `src/bin/18.rs` (componentwise `i8` addition,
wrapping). -/
def Coord.addc (a b : Coord) : Coord :=
  { x := i8wrap (a.x + b.x), y := i8wrap (a.y + b.y), z := i8wrap (a.z + b.z) }

/-- `impl Mul<i8> for Coord` from `src/bin/18.rs` (componentwise `i8`
multiplication, wrapping). -/
def Coord.muls (a : Coord) (r : Int) : Coord :=
  { x := i8wrap (a.x * r), y := i8wrap (a.y * r), z := i8wrap (a.z * r) }

/-- Embedding of `struct Plane { n: Coord, d: i32 }` from `src/bin/18.rs`. -/
structure Plane where
  n : Coord
  d : Int
deriving DecidableEq, Repr

/-- The custom `impl PartialEq for Plane` from `src/bin/18.rs`:
`dot.abs() == 1 && self.d == other.d * dot.signum()`. -/
def planeEqb (p q : Plane) : Bool :=
  ((p.n.dot q.n).natAbs == 1) && (p.d == q.d * Int.sign (p.n.dot q.n))

/-- Embedding of `struct BoundedPlane { plane: Plane, r0: Coord }` from
`src/bin/18.rs`. -/
structure BoundedPlane where
  plane : Plane
  r0 : Coord
deriving DecidableEq, Repr

/-- The derived `PartialEq for BoundedPlane` from `src/bin/18.rs`: fieldwise,
using the custom `Plane` equality. -/
def bpEqb (p q : BoundedPlane) : Bool :=
  planeEqb p.plane q.plane && (p.r0 == q.r0)

/-- `const PLANES: [(Coord, Coord); 6]` from `src/bin/18.rs`:
`(offset of point in plane, normal vector)` for faces A-F. -/
def PLANES : List (Coord × Coord) :=
  [({ x := 0, y := 0, z := 0 }, { x := 0, y := 0, z := -1 }),
   ({ x := 1, y := 0, z := 0 }, { x := 1, y := 0, z := 0 }),
   ({ x := 0, y := 0, z := 1 }, { x := 0, y := 0, z := 1 }),
   ({ x := 0, y := 0, z := 0 }, { x := -1, y := 0, z := 0 }),
   ({ x := 0, y := 1, z := 0 }, { x := 0, y := 1, z := 0 }),
   ({ x := 0, y := 0, z := 0 }, { x := 0, y := -1, z := 0 })]

/-- The body of the `PLANES.iter().map(...)` closure in `all_planes` from
`src/bin/18.rs`: `r0 = coord + offset`, `d = (normal * -1).dot(r0)`. -/
def planeForCube (c : Coord) (onr : Coord × Coord) : BoundedPlane :=
  let r0 := c.addc onr.1
  { plane := { n := onr.2, d := (onr.2.muls (-1)).dot r0 }, r0 := r0 }

/-- `all_planes` from `src/bin/18.rs`: the six bounded planes of every cube,
in input order. -/
def all_planes (coords : List Coord) : List BoundedPlane :=
  (coords.map (fun c => PLANES.map (planeForCube c))).flatten

/-- The `for` loop of `exterior_surface_area` from `src/bin/18.rs`: running
`seen` list and signed `faces` count (`Vec::contains` uses the custom
`PartialEq`, applied as `seen_element == plane`). -/
def esaAux (seen : List BoundedPlane) (rest : List BoundedPlane) (faces : Int) : Int :=
  match rest with
  | [] => faces
  | p :: rest' =>
      if seen.any (fun q => bpEqb q p) then esaAux seen rest' (faces - 1)
      else esaAux (seen ++ [p]) rest' (faces + 1)

/-- `exterior_surface_area` from `src/bin/18.rs`; `none` models a failure of
the final `assert!(faces >= 0)`, and the `Nat` result models the `u32` cast. -/
def exterior_surface_area (planes : List BoundedPlane) : Option Nat :=
  let faces := esaAux [] planes 0
  if 0 ≤ faces then some faces.toNat else none

/-- `find_min_max` from `part_two` of `src/bin/18.rs` (fold with `i32::MAX`
and `i32::MIN` as initial accumulator). -/
def find_min_max (coords : List Coord) (f : Coord → Int) : Int × Int :=
  coords.foldl
    (fun mm item =>
      (if f item < mm.1 then f item else mm.1,
       if f item > mm.2 then f item else mm.2))
    (2147483647, -2147483648)

/-- The bounds of the problem space computed at the top of `part_two` in
`src/bin/18.rs`: `((x_min, x_max), (y_min, y_max), (z_min, z_max))`. -/
def boundsOf (coords : List Coord) : (Int × Int) × (Int × Int) × (Int × Int) :=
  (find_min_max coords (fun c => c.x),
   find_min_max coords (fun c => c.y),
   find_min_max coords (fun c => c.z))

/-- The `pos` closure from `part_two` of `src/bin/18.rs`: the flat index of an
in-bounds coordinate, `none` outside the problem space.  The embedding keeps
the mathematical `i32` index (the source's `as usize` cast of a negative index
makes the subsequent vector access panic; such runs abort before the pruning
loop and are not modelled further). -/
def pos (b : (Int × Int) × (Int × Int) × (Int × Int)) (c : Coord) : Option Int :=
  if b.1.1 ≤ c.x ∧ c.x ≤ b.1.2 ∧ b.2.1.1 ≤ c.y ∧ c.y ≤ b.2.1.2 ∧
      b.2.2.1 ≤ c.z ∧ c.z ≤ b.2.2.2 then
    some (c.z * (b.1.2 + 1) * (b.2.1.2 + 1) + c.y * (b.1.2 + 1) + c.x)
  else
    none

/-- The `states` vector from `part_two` of `src/bin/18.rs`, read at index `i`:
`true` exactly at indices written by the initialization loop
(`states[pos(coord)] = true` for each input cube). -/
def states_at (coords : List Coord) (b : (Int × Int) × (Int × Int) × (Int × Int))
    (i : Int) : Bool :=
  coords.any (fun c => pos b c == some i)

/-- The `adjacents` closure from `part_two` of `src/bin/18.rs` (componentwise
`i8` arithmetic, wrapping). -/
def adjacents (c : Coord) : List Coord :=
  [{ x := c.x, y := c.y, z := i8wrap (c.z - 1) },
   { x := c.x, y := c.y, z := i8wrap (c.z + 1) },
   { x := i8wrap (c.x + 1), y := c.y, z := c.z },
   { x := i8wrap (c.x - 1), y := c.y, z := c.z },
   { x := c.x, y := i8wrap (c.y - 1), z := c.z },
   { x := c.x, y := i8wrap (c.y + 1), z := c.z }]

/-- The per-candidate fold inside the pruning loop of `part_two` in
`src/bin/18.rs`: among the in-bounds neighbours of `c`, count those that are
rock or still air-pocket candidates. -/
def airNeighbours (coords : List Coord)
    (b : (Int × Int) × (Int × Int) × (Int × Int)) (s : Finset Coord) (c : Coord) : Nat :=
  ((adjacents c).filter (fun adj => (pos b adj).isSome)).foldl
    (fun acc adj =>
      if states_at coords b ((pos b adj).getD 0) || decide (adj ∈ s) then acc + 1
      else acc)
    0

/-- One iteration of the `while changed` pruning loop of `part_two` in
`src/bin/18.rs`: keep exactly the candidates whose six-neighbour count is 6
(`remaining` is built by filtering `possible_air_gap`, so each iteration
produces a subset). -/
def airStep (coords : List Coord)
    (b : (Int × Int) × (Int × Int) × (Int × Int)) (s : Finset Coord) : Finset Coord :=
  s.filter (fun c => airNeighbours coords b s c = 6)

/-- The initial `possible_air_gap` set of `part_two` in `src/bin/18.rs`:
in-bounds cells that are not rock. -/
def initialAirGap (coords : List Coord)
    (b : (Int × Int) × (Int × Int) × (Int × Int)) : Finset Coord :=
  ((((List.range (b.1.2 - b.1.1 + 1).toNat).map (fun i => b.1.1 + i)).map (fun xv =>
      (((List.range (b.2.1.2 - b.2.1.1 + 1).toNat).map (fun i => b.2.1.1 + i)).map (fun yv =>
        (((List.range (b.2.2.2 - b.2.2.1 + 1).toNat).map (fun i => b.2.2.1 + i)).map (fun zv =>
          ({ x := xv, y := yv, z := zv } : Coord))))).flatten)).flatten).foldl
    (fun s c => if states_at coords b ((pos b c).getD 0) then s else insert c s) ∅

theorem airStep_subset (coords : List Coord)
    (b : (Int × Int) × (Int × Int) × (Int × Int)) (s : Finset Coord) :
    airStep coords b s ⊆ s :=
  Finset.filter_subset _ _

theorem iterate_fixed_of_fixed {α : Type} (F : α → α) (s : α) (h : F s = s) :
    ∀ k, F^[k] s = s := by
  intro k
  induction k with
  | zero => rfl
  | succ k ih => rw [Function.iterate_succ_apply, h, ih]

theorem shrinking_reaches_fixpoint {α : Type} [DecidableEq α]
    (F : Finset α → Finset α) (hsub : ∀ s, F s ⊆ s) :
    ∀ (n : Nat) (s : Finset α), s.card ≤ n → F (F^[n] s) = F^[n] s := by
  intro n
  induction n with
  | zero =>
      intro s hs
      have hcard : s.card = 0 := Nat.le_zero.mp hs
      have hempty : s = ∅ := Finset.card_eq_zero.mp hcard
      subst hempty
      simpa using Finset.subset_empty.mp (hsub ∅)
  | succ n ih =>
      intro s hs
      by_cases hfix : F s = s
      · rw [iterate_fixed_of_fixed F s hfix]
        exact hfix
      · have hms : F s ⊂ s := (Finset.ssubset_iff_subset_ne).mpr ⟨hsub s, hfix⟩
        have hlt : (F s).card < s.card := Finset.card_lt_card hms
        have hle : (F s).card ≤ n := by omega
        rw [Function.iterate_succ_apply]
        exact ih (F s) hle

end Day18

/-- C7: the `while changed` air-pocket pruning loop of day 18's `part_two`
terminates: each iteration filters (hence never grows) the candidate set, so
starting from the initial candidate set the state is fixed after at most
`card` strict shrinks; the loop therefore executes at most one more iteration
than the initial number of candidates.  Stated for the program's own step
function and initial set, for every input cube list. -/
theorem day18_air_pruning_terminates (coords : List Day18.Coord) :
    Day18.airStep coords (Day18.boundsOf coords)
        ((Day18.airStep coords (Day18.boundsOf coords))^[(Day18.initialAirGap coords (Day18.boundsOf coords)).card]
          (Day18.initialAirGap coords (Day18.boundsOf coords))) =
      (Day18.airStep coords (Day18.boundsOf coords))^[(Day18.initialAirGap coords (Day18.boundsOf coords)).card]
        (Day18.initialAirGap coords (Day18.boundsOf coords)) :=
  Day18.shrinking_reaches_fixpoint _ (Day18.airStep_subset coords _) _ _ le_rfl

namespace Day18

/-- One step of `str::splitn(_, ',')` from `parse` in `src/bin/18.rs`: split a
line at its first separator, `none` when the separator does not occur. -/
def splitOnceChar (sep : Char) : List Char → Option (List Char × List Char)
  | [] => none
  | c :: rest =>
      if c = sep then some ([], rest)
      else (splitOnceChar sep rest).map (fun pr => (c :: pr.1, pr.2))

/-- `line.splitn(3, ',')` from `parse` in `src/bin/18.rs`: at most three
chunks, the last one keeping any remaining separators. -/
def splitn3 (sep : Char) (l : List Char) : List (List Char) :=
  match splitOnceChar sep l with
  | none => [l]
  | some (a, rest) =>
      match splitOnceChar sep rest with
      | none => [a, rest]
      | some (b, rest2) => [a, b, rest2]

/-- Decimal value of a digit string (exact counterpart of the accumulation in
Rust's integer `FromStr`; the range check below is equivalent to Rust's
per-step overflow check because digits only increase the magnitude). -/
def digitsVal (l : List Char) : Nat :=
  l.foldl (fun a c => a * 10 + (c.toNat - '0'.toNat)) 0

/-- Non-empty all-digit string check, as required by Rust's integer
`FromStr`. -/
def isDigits (l : List Char) : Bool :=
  (decide (l ≠ [])) && l.all (fun c => c.isDigit)

/-- `x.parse::<i8>()` from `parse` in `src/bin/18.rs`: optional sign, then a
non-empty digit string whose value fits in `i8`; `none` is `Err`. -/
def parse_i8 (l : List Char) : Option Int :=
  match l with
  | [] => none
  | c :: rest =>
      if c = '+' then
        if isDigits rest = true ∧ digitsVal rest ≤ 127 then
          some ((digitsVal rest : Nat) : Int)
        else none
      else if c = '-' then
        if isDigits rest = true ∧ digitsVal rest ≤ 128 then
          some (-((digitsVal rest : Nat) : Int))
        else none
      else
        if isDigits (c :: rest) = true ∧ digitsVal (c :: rest) ≤ 127 then
          some ((digitsVal (c :: rest) : Nat) : Int)
        else none

/-- The per-line body of `parse` from `src/bin/18.rs`.  `none` covers both
abort paths of the source: a `ParseIntError` (propagated to the `expect` in
`part_one`) and the `res[0]`/`res[1]`/`res[2]` index panic when `splitn`
produced fewer than three chunks. -/
def parse_line (l : List Char) : Option Coord :=
  match splitn3 ',' l with
  | [a, b, c] =>
      match parse_i8 a, parse_i8 b, parse_i8 c with
      | some xv, some yv, some zv => some { x := xv, y := yv, z := zv }
      | _, _, _ => none
  | _ => none

/-- `parse` from `src/bin/18.rs` over the input's lines (the `collect` over
`Result`s short-circuits at the first failing line). -/
def parse (lines : List (List Char)) : Option (List Coord) :=
  match lines with
  | [] => some []
  | l :: rest =>
      match parse_line l, parse rest with
      | some c, some cs => some (c :: cs)
      | _, _ => none

/-- `part_one` from `src/bin/18.rs` as a function of the input's lines:
panics (`none`) when `parse` fails or the final assert fails, otherwise
`Some` of the surface area. -/
def part_one (lines : List (List Char)) : Option Nat :=
  match parse lines with
  | some coords => exterior_surface_area (all_planes coords)
  | none => none

/-- Modelled from the claim's words: a decimal integer literal (optional sign,
non-empty digit string) whose value lies in the `i8` range. -/
def I8Literal (l : List Char) : Prop :=
  ∃ ds : List Char, ds ≠ [] ∧ (∀ c ∈ ds, c.isDigit = true) ∧
    ((l = ds ∧ digitsVal ds ≤ 127) ∨
     (l = '+' :: ds ∧ digitsVal ds ≤ 127) ∨
     (l = '-' :: ds ∧ digitsVal ds ≤ 128))

/-- Modelled from the claim's words: a line that is exactly three
comma-separated integers, each in `i8` range. -/
def WellFormedLine (l : List Char) : Prop :=
  ∃ p q r : List Char,
    l = p ++ ',' :: (q ++ ',' :: r) ∧ I8Literal p ∧ I8Literal q ∧ I8Literal r

theorem splitOnceChar_eq {sep : Char} :
    ∀ {l a b : List Char}, splitOnceChar sep l = some (a, b) → l = a ++ sep :: b := by
  intro l
  induction l with
  | nil => intro a b h; simp [splitOnceChar] at h
  | cons c rest ih =>
      intro a b h
      by_cases hc : c = sep
      · subst hc
        simp only [splitOnceChar, if_pos rfl] at h
        have h2 := Option.some.inj h
        have ha := congrArg Prod.fst h2
        have hb := congrArg Prod.snd h2
        simp only at ha hb
        subst ha
        subst hb
        rfl
      · simp only [splitOnceChar, if_neg hc, Option.map_eq_some'] at h
        obtain ⟨⟨a', b'⟩, hsp, heq⟩ := h
        have ha := congrArg Prod.fst heq
        have hb := congrArg Prod.snd heq
        simp only at ha hb
        subst ha
        subst hb
        simp [ih hsp]

theorem splitn3_three_decomp {sep : Char} {l a b c : List Char}
    (h : splitn3 sep l = [a, b, c]) : l = a ++ sep :: (b ++ sep :: c) := by
  unfold splitn3 at h
  rcases h1 : splitOnceChar sep l with _ | ⟨a', rest⟩
  · rw [h1] at h
    simp at h
  · rw [h1] at h
    dsimp only at h
    rcases h2 : splitOnceChar sep rest with _ | ⟨b', rest2⟩
    · rw [h2] at h
      simp at h
    · rw [h2] at h
      dsimp only at h
      simp only [List.cons.injEq, and_true] at h
      obtain ⟨ha, hb, hc⟩ := h
      subst ha
      subst hb
      subst hc
      rw [splitOnceChar_eq h1, splitOnceChar_eq h2]

theorem isDigits_parts {l : List Char} (h : isDigits l = true) :
    l ≠ [] ∧ ∀ ch ∈ l, ch.isDigit = true := by
  simp only [isDigits, Bool.and_eq_true, decide_eq_true_eq, List.all_eq_true] at h
  exact h

theorem parse_i8_some_I8Literal {l : List Char} {v : Int}
    (h : parse_i8 l = some v) : I8Literal l := by
  match l with
  | [] => simp [parse_i8] at h
  | c :: rest =>
      unfold parse_i8 at h
      dsimp only at h
      by_cases hplus : c = '+'
      · rw [if_pos hplus] at h
        split at h
        · rename_i hcond
          obtain ⟨hne, hdig⟩ := isDigits_parts hcond.1
          exact ⟨rest, hne, hdig, Or.inr (Or.inl ⟨by rw [hplus], hcond.2⟩)⟩
        · simp at h
      · rw [if_neg hplus] at h
        by_cases hminus : c = '-'
        · rw [if_pos hminus] at h
          split at h
          · rename_i hcond
            obtain ⟨hne, hdig⟩ := isDigits_parts hcond.1
            exact ⟨rest, hne, hdig, Or.inr (Or.inr ⟨by rw [hminus], hcond.2⟩)⟩
          · simp at h
        · rw [if_neg hminus] at h
          split at h
          · rename_i hcond
            obtain ⟨hne, hdig⟩ := isDigits_parts hcond.1
            exact ⟨c :: rest, hne, hdig, Or.inl ⟨rfl, hcond.2⟩⟩
          · simp at h

theorem parse_line_some_WellFormed {l : List Char} {c : Coord}
    (h : parse_line l = some c) : WellFormedLine l := by
  unfold parse_line at h
  rcases hs : splitn3 ',' l with _ | ⟨a, _ | ⟨b, _ | ⟨cc, _ | _⟩⟩⟩ <;>
    rw [hs] at h <;> dsimp only at h
  · simp at h
  · simp at h
  · simp at h
  · rcases hpa : parse_i8 a with _ | xv <;> rw [hpa] at h
    · simp at h
    · rcases hpb : parse_i8 b with _ | yv <;> rw [hpb] at h
      · simp at h
      · rcases hpc : parse_i8 cc with _ | zv <;> rw [hpc] at h
        · simp at h
        · exact ⟨a, b, cc, splitn3_three_decomp hs, parse_i8_some_I8Literal hpa,
            parse_i8_some_I8Literal hpb, parse_i8_some_I8Literal hpc⟩
  · simp at h

theorem parse_some_forall {lines : List (List Char)} {cs : List Coord}
    (h : parse lines = some cs) :
    ∀ l ∈ lines, ∃ c, parse_line l = some c := by
  induction lines generalizing cs with
  | nil => intro l hl; simp at hl
  | cons l₀ rest ih =>
      intro l hl
      unfold parse at h
      rcases hp : parse_line l₀ with _ | c₀ <;> rw [hp] at h
      · simp at h
      rcases hr : parse rest with _ | cs' <;> rw [hr] at h
      · simp at h
      rcases List.mem_cons.mp hl with heq | hmem
      · exact heq ▸ ⟨c₀, hp⟩
      · exact ih hr l hmem

end Day18

/-- C6: malformed input aborts rather than producing an answer: for every day
18 input (as its list of lines) containing at least one line that is not
exactly three comma-separated integers each in `i8` range, `part_one` aborts
(`none`, covering the parse-error and indexing panics) and never returns a
`Some` value. -/
theorem day18_malformed_input_aborts (lines : List (List Char))
    (h : ∃ l ∈ lines, ¬ Day18.WellFormedLine l) :
    Day18.part_one lines = none := by
  obtain ⟨l, hl, hnwf⟩ := h
  rcases hp : Day18.parse lines with _ | cs
  · simp [Day18.part_one, hp]
  · obtain ⟨c, hc⟩ := Day18.parse_some_forall hp l hl
    exact absurd (Day18.parse_line_some_WellFormed hc) hnwf

/-- Witness for C6: the input whose single line is `1,2` (only two fields) is
malformed and `part_one` aborts on it. -/
theorem day18_malformed_input_aborts_witness :
    (∃ l ∈ [['1', ',', '2']], ¬ Day18.WellFormedLine l) ∧
      Day18.part_one [['1', ',', '2']] = none := by
  have hnwf : ¬ Day18.WellFormedLine ['1', ',', '2'] := by
    rintro ⟨p, q, r, heq, -, -, -⟩
    have hcount := congrArg (List.count ',') heq
    simp [List.count_append, List.count_cons] at hcount
    omega
  exact ⟨⟨['1', ',', '2'], by simp, hnwf⟩,
    day18_malformed_input_aborts _ ⟨['1', ',', '2'], by simp, hnwf⟩⟩

namespace Day18

/-- Plain (unwrapped) componentwise coordinate addition; used to state the
no-overflow regime in which it agrees with the source's `i8` `Add`. -/
def addp (a b : Coord) : Coord :=
  { x := a.x + b.x, y := a.y + b.y, z := a.z + b.z }

/-- Componentwise bounds under which every `r0 = coord + offset` computed by
`all_planes` stays in `i8` range (offsets have components `0`/`1`). -/
def InRange (c : Coord) : Prop :=
  -128 ≤ c.x ∧ c.x ≤ 126 ∧ -128 ≤ c.y ∧ c.y ≤ 126 ∧ -128 ≤ c.z ∧ c.z ≤ 126

/-- Modelled from the claim's words: two cubes share a face exactly when their
coordinates differ by one in exactly one axis. -/
def sharesFace (a b : Coord) : Bool :=
  (a.x - b.x).natAbs + (a.y - b.y).natAbs + (a.z - b.z).natAbs == 1

/-- Modelled from the claim's words: the number of unordered pairs of cubes in
the list sharing a face (each pair counted at its earlier element). -/
def sharedFacePairs : List Coord → Nat
  | [] => 0
  | c :: rest => rest.countP (fun d => sharesFace c d) + sharedFacePairs rest

end Day18

/-- C5 counterexample: for the pairwise-distinct cubes `(127,0,0)` and
`(-128,0,0)`, which do not share a face, the claimed value `6*2 - 2*0 = 12`
differs from the computed surface area `10`: the `i8` overflow in
`r0 = coord + offset` wraps `127 + 1` to `-128`, making two faces of the two
cubes compare equal. -/
theorem day18_surface_area_claim_false :
    Day18.exterior_surface_area
        (Day18.all_planes
          [{ x := 127, y := 0, z := 0 }, { x := -128, y := 0, z := 0 }]) ≠
      some (6 * 2 -
        2 * Day18.sharedFacePairs
          [{ x := 127, y := 0, z := 0 }, { x := -128, y := 0, z := 0 }]) ∧
    Day18.exterior_surface_area
        (Day18.all_planes
          [{ x := 127, y := 0, z := 0 }, { x := -128, y := 0, z := 0 }]) = some 10 ∧
    Day18.sharedFacePairs
        [{ x := 127, y := 0, z := 0 }, { x := -128, y := 0, z := 0 }] = 0 := by
  refine ⟨?_, by decide, by decide⟩
  decide

namespace Day18

/-- Canonical axis of a face normal: componentwise absolute value. -/
def canonN (n : Coord) : Coord :=
  { x := (n.x.natAbs : Int), y := (n.y.natAbs : Int), z := (n.z.natAbs : Int) }

/-- Canonical key identifying a face up to the custom plane equality:
the unsigned axis of the normal together with the face anchor `r0`. -/
def faceKey (bp : BoundedPlane) : Coord × Coord :=
  (canonN bp.plane.n, bp.r0)

/-- A face with its `d` derived from the anchor, as `planeForCube` builds. -/
def mkFace (n r : Coord) : BoundedPlane :=
  { plane := { n := n, d := (n.muls (-1)).dot r }, r0 := r }

theorem planeForCube_eq_mkFace (c : Coord) (onr : Coord × Coord) :
    planeForCube c onr = mkFace onr.2 (c.addc onr.1) := rfl

theorem bpEqb_mkFace_iff {n1 n2 : Coord}
    (h1 : n1 ∈ PLANES.map Prod.snd) (h2 : n2 ∈ PLANES.map Prod.snd)
    (r r' : Coord) :
    (bpEqb (mkFace n1 r) (mkFace n2 r') = true) ↔
      (canonN n1 = canonN n2 ∧ r = r') := by
  fin_cases h1 <;> fin_cases h2 <;>
    simp [bpEqb, planeEqb, mkFace, Coord.dot, Coord.muls, i8wrap, canonN,
      Coord.ext_iff] <;> omega

end Day18

namespace Day18

theorem i8wrap_eq_self {z : Int} (h1 : -128 ≤ z) (h2 : z ≤ 127) : i8wrap z = z := by
  unfold i8wrap
  omega

/-- The three positive unit vectors (canonical axes). -/
def ux : Coord := { x := 1, y := 0, z := 0 }

def uy : Coord := { x := 0, y := 1, z := 0 }

def uz : Coord := { x := 0, y := 0, z := 1 }

theorem addc_offset_zero {c : Coord} (hc : InRange c) :
    c.addc { x := 0, y := 0, z := 0 } = c := by
  obtain ⟨h1, h2, h3, h4, h5, h6⟩ := hc
  ext <;> simp [Coord.addc] <;> rw [i8wrap_eq_self] <;> omega

theorem addc_ux {c : Coord} (hc : InRange c) :
    c.addc { x := 1, y := 0, z := 0 } = addp c ux := by
  obtain ⟨h1, h2, h3, h4, h5, h6⟩ := hc
  ext <;> simp [Coord.addc, addp, ux] <;> rw [i8wrap_eq_self] <;> omega

theorem addc_uy {c : Coord} (hc : InRange c) :
    c.addc { x := 0, y := 1, z := 0 } = addp c uy := by
  obtain ⟨h1, h2, h3, h4, h5, h6⟩ := hc
  ext <;> simp [Coord.addc, addp, uy] <;> rw [i8wrap_eq_self] <;> omega

theorem addc_uz {c : Coord} (hc : InRange c) :
    c.addc { x := 0, y := 0, z := 1 } = addp c uz := by
  obtain ⟨h1, h2, h3, h4, h5, h6⟩ := hc
  ext <;> simp [Coord.addc, addp, uz] <;> rw [i8wrap_eq_self] <;> omega

/-- The six face keys of a cube `c` (in `PLANES` order), in the no-overflow
regime. -/
def cubeKeysE (c : Coord) : List (Coord × Coord) :=
  [(uz, c), (ux, addp c ux), (uz, addp c uz), (ux, c), (uy, addp c uy), (uy, c)]

theorem cubeKeys_eq {c : Coord} (hc : InRange c) :
    (PLANES.map (planeForCube c)).map faceKey = cubeKeysE c := by
  simp only [PLANES, List.map_cons, List.map_nil, planeForCube_eq_mkFace, cubeKeysE,
    faceKey, mkFace, addc_offset_zero hc, addc_ux hc, addc_uy hc, addc_uz hc]
  simp [canonN, ux, uy, uz]

end Day18

namespace Day18

def subp (a b : Coord) : Coord :=
  { x := a.x - b.x, y := a.y - b.y, z := a.z - b.z }

theorem addp_eq_iff {c u r : Coord} : addp c u = r ↔ c = subp r u := by
  constructor <;> intro h <;> ext <;>
    simp only [addp, subp] at * <;> cases h <;> simp [addp, subp]

theorem count_cubeKeysE (c r : Coord) {u : Coord} (hu : u = ux ∨ u = uy ∨ u = uz) :
    (cubeKeysE c).count (u, r) =
      (if c = r then 1 else 0) + (if addp c u = r then 1 else 0) := by
  rcases hu with rfl | rfl | rfl <;>
    · simp only [cubeKeysE, List.count_cons, List.count_nil, beq_iff_eq, Prod.mk.injEq]
      simp only [ux, uy, uz, Coord.mk.injEq, addp]
      norm_num
      all_goals exact Nat.add_comm _ _

theorem count_flatten_eq (x : Coord × Coord) :
    ∀ (L : List (List (Coord × Coord))),
      L.flatten.count x = (L.map (fun l => l.count x)).sum := by
  intro L
  induction L with
  | nil => rfl
  | cons l L ih => simp [List.count_append, ih]

theorem map_faceKey_all_planes {coords : List Coord}
    (hrange : ∀ c ∈ coords, InRange c) :
    (all_planes coords).map faceKey = (coords.map cubeKeysE).flatten := by
  unfold all_planes
  rw [List.map_flatten, List.map_map]
  congr 1
  refine List.map_congr_left ?_
  intro c hc
  exact cubeKeys_eq (hrange c hc)

theorem sum_indicator_nodup {coords : List Coord} (hnd : coords.Nodup) (r : Coord) :
    (coords.map (fun c => if c = r then 1 else 0)).sum =
      (if r ∈ coords then 1 else 0) := by
  induction coords with
  | nil => simp
  | cons c rest ih =>
      have hnd' := hnd.of_cons
      by_cases hc : c = r
      · subst hc
        have hnotmem : c ∉ rest := (List.nodup_cons.mp hnd).1
        simp [List.sum_cons, ih hnd', hnotmem]
      · simp [List.sum_cons, ih hnd', hc, List.mem_cons, Ne.symm hc]

theorem count_M {coords : List Coord} (hnd : coords.Nodup)
    (hrange : ∀ c ∈ coords, InRange c) {u : Coord}
    (hu : u = ux ∨ u = uy ∨ u = uz) (r : Coord) :
    ((all_planes coords).map faceKey).count (u, r) =
      (if r ∈ coords then 1 else 0) + (if subp r u ∈ coords then 1 else 0) := by
  rw [map_faceKey_all_planes hrange, count_flatten_eq, List.map_map]
  have hfun : ∀ c ∈ coords,
      (cubeKeysE c).count (u, r) =
        (if c = r then 1 else 0) + (if c = subp r u then 1 else 0) := by
    intro c _
    rw [count_cubeKeysE c r hu]
    congr 1
    simp [addp_eq_iff]
  calc (coords.map fun c => (cubeKeysE c).count (u, r)).sum
      = (coords.map fun c =>
          (if c = r then 1 else 0) + (if c = subp r u then 1 else 0)).sum := by
        exact congrArg List.sum (List.map_congr_left hfun)
    _ = (coords.map fun c => if c = r then 1 else 0).sum +
          (coords.map fun c => if c = subp r u then 1 else 0).sum := by
        induction coords with
        | nil => simp
        | cons c rest ih =>
            simp [List.sum_cons, ih]
            omega
    _ = (if r ∈ coords then 1 else 0) + (if subp r u ∈ coords then 1 else 0) := by
        rw [sum_indicator_nodup hnd, sum_indicator_nodup hnd]

end Day18

namespace Day18

theorem mem_all_planes {p : BoundedPlane} {coords : List Coord} :
    p ∈ all_planes coords ↔ ∃ c ∈ coords, ∃ onr ∈ PLANES, p = planeForCube c onr := by
  unfold all_planes
  simp only [List.mem_flatten, List.mem_map]
  constructor
  · rintro ⟨l, ⟨c, hc, rfl⟩, hpl⟩
    obtain ⟨onr, honr, rfl⟩ := List.mem_map.mp hpl
    exact ⟨c, hc, onr, honr, rfl⟩
  · rintro ⟨c, hc, onr, honr, rfl⟩
    exact ⟨PLANES.map (planeForCube c), ⟨c, hc, rfl⟩, List.mem_map_of_mem _ honr⟩

theorem faceKey_mkFace (n r : Coord) : faceKey (mkFace n r) = (canonN n, r) := rfl

theorem key_eq_iff {coords : List Coord} {p q : BoundedPlane}
    (hp : p ∈ all_planes coords) (hq : q ∈ all_planes coords) :
    (bpEqb q p = true) ↔ faceKey q = faceKey p := by
  obtain ⟨c, -, onr, honr, rfl⟩ := mem_all_planes.mp hp
  obtain ⟨c', -, onr', honr', rfl⟩ := mem_all_planes.mp hq
  rw [planeForCube_eq_mkFace, planeForCube_eq_mkFace]
  rw [bpEqb_mkFace_iff (List.mem_map_of_mem Prod.snd honr')
    (List.mem_map_of_mem Prod.snd honr)]
  rw [faceKey_mkFace, faceKey_mkFace, Prod.mk.injEq]

theorem any_bpEqb_iff {coords : List Coord} {seen : List BoundedPlane}
    {p : BoundedPlane} (hseen : ∀ q ∈ seen, q ∈ all_planes coords)
    (hp : p ∈ all_planes coords) :
    ((seen.any fun q => bpEqb q p) = true) ↔ faceKey p ∈ seen.map faceKey := by
  rw [List.any_eq_true]
  constructor
  · rintro ⟨q, hq, heq⟩
    exact List.mem_map.mpr ⟨q, hq, ((key_eq_iff hp (hseen q hq)).mp heq).symm ▸ rfl⟩
  · intro hmem
    obtain ⟨q, hq, hkey⟩ := List.mem_map.mp hmem
    exact ⟨q, hq, (key_eq_iff hp (hseen q hq)).mpr hkey⟩

theorem firstComp_mem_units {coords : List Coord} {x : Coord × Coord}
    (hrange : ∀ c ∈ coords, InRange c)
    (hx : x ∈ (all_planes coords).map faceKey) :
    x.1 = ux ∨ x.1 = uy ∨ x.1 = uz := by
  rw [map_faceKey_all_planes hrange] at hx
  obtain ⟨l, hl, hxl⟩ := List.mem_flatten.mp hx
  obtain ⟨c, -, rfl⟩ := List.mem_map.mp hl
  simp only [cubeKeysE, List.mem_cons, List.not_mem_nil, or_false] at hxl
  rcases hxl with rfl | rfl | rfl | rfl | rfl | rfl <;> simp

theorem count_M_le_two {coords : List Coord} (hnd : coords.Nodup)
    (hrange : ∀ c ∈ coords, InRange c) (x : Coord × Coord) :
    ((all_planes coords).map faceKey).count x ≤ 2 := by
  by_cases hx : x ∈ (all_planes coords).map faceKey
  · have hu := firstComp_mem_units hrange hx
    have := count_M hnd hrange hu x.2
    rw [show ((x.1, x.2) : Coord × Coord) = x from rfl] at this
    rw [this]
    split_ifs <;> omega
  · rw [List.count_eq_zero_of_not_mem hx]
    omega

end Day18

namespace Day18

/-- Number of processed duplicates: elements of `R` whose key was already
pushed into `seen` (keys `S`). -/
def hitsK (S : List (Coord × Coord)) : List (Coord × Coord) → Nat
  | [] => 0
  | y :: R => (if y ∈ S then 1 else 0) + hitsK S R

/-- Number of distinct keys of `R` that are new w.r.t. `S` and occur exactly
once in `R`. -/
def onceNewK (S R : List (Coord × Coord)) : Nat :=
  (R.toFinset.filter (fun x => x ∉ S ∧ R.count x = 1)).card

theorem esaAux_nil (seen : List BoundedPlane) (faces : Int) :
    esaAux seen [] faces = faces := rfl

theorem esaAux_cons (seen : List BoundedPlane) (p : BoundedPlane)
    (rest' : List BoundedPlane) (faces : Int) :
    esaAux seen (p :: rest') faces =
      if seen.any (fun q => bpEqb q p) then esaAux seen rest' (faces - 1)
      else esaAux (seen ++ [p]) rest' (faces + 1) := rfl

theorem count_cons_self_key (x : Coord × Coord) (R' : List (Coord × Coord)) :
    (x :: R').count x = R'.count x + 1 := by
  simp [List.count_cons]

theorem count_cons_ne_key {y x : Coord × Coord} (h : y ≠ x) (R' : List (Coord × Coord)) :
    (x :: R').count y = R'.count y := by
  simp [List.count_cons, h]

theorem hitsK_cons_mem {S : List (Coord × Coord)} {x : Coord × Coord}
    (hx : x ∈ S) (R' : List (Coord × Coord)) :
    hitsK S (x :: R') = hitsK S R' + 1 := by
  simp [hitsK, hx]
  omega

theorem hitsK_cons_not_mem {S : List (Coord × Coord)} {x : Coord × Coord}
    (hx : x ∉ S) (R' : List (Coord × Coord)) :
    hitsK S (x :: R') = hitsK S R' := by
  simp [hitsK, hx]

theorem hitsK_append_singleton {S : List (Coord × Coord)} {x : Coord × Coord}
    (hx : x ∉ S) (R' : List (Coord × Coord)) :
    hitsK (S ++ [x]) R' = hitsK S R' + R'.count x := by
  induction R' with
  | nil => simp [hitsK]
  | cons y R ih =>
      unfold hitsK
      rw [ih]
      have hmem : (y ∈ S ++ [x]) ↔ (y ∈ S ∨ y = x) := by
        simp [List.mem_append]
      by_cases hy2 : y = x
      · subst hy2
        rw [if_pos (hmem.mpr (Or.inr rfl)), if_neg hx, count_cons_self_key]
        omega
      · rw [count_cons_ne_key (fun h : x = y => hy2 h.symm) R]
        by_cases hy1 : y ∈ S
        · rw [if_pos (hmem.mpr (Or.inl hy1)), if_pos hy1]
          omega
        · rw [if_neg (fun h => (hmem.mp h).elim hy1 hy2), if_neg hy1]
          omega

theorem onceNewK_cons_mem {S : List (Coord × Coord)} {x : Coord × Coord}
    (hx : x ∈ S) (R' : List (Coord × Coord)) :
    onceNewK S (x :: R') = onceNewK S R' := by
  unfold onceNewK
  rw [List.toFinset_cons, Finset.filter_insert]
  rw [if_neg (show ¬ (x ∉ S ∧ (x :: R').count x = 1) from fun h => h.1 hx)]
  refine congrArg Finset.card (Finset.filter_congr ?_)
  intro y hy
  by_cases hyx : y = x
  · subst hyx
    simp [hx]
  · rw [count_cons_ne_key hyx]

theorem onceNewK_cons_not_mem {S : List (Coord × Coord)} {x : Coord × Coord}
    (hx : x ∉ S) {R' : List (Coord × Coord)} (hcnt : R'.count x ≤ 1) :
    onceNewK S (x :: R') =
      onceNewK (S ++ [x]) R' + (if R'.count x = 0 then 1 else 0) := by
  unfold onceNewK
  rw [List.toFinset_cons, Finset.filter_insert]
  have hcong :
      Finset.filter (fun y => y ∉ S ∧ (x :: R').count y = 1) R'.toFinset =
        Finset.filter (fun y => y ∉ S ++ [x] ∧ R'.count y = 1) R'.toFinset := by
    apply Finset.filter_congr
    intro y hy
    by_cases hyx : y = x
    · subst hyx
      have hymem : y ∈ R' := List.mem_toFinset.mp hy
      have hpos : 1 ≤ R'.count y := List.count_pos_iff.mpr hymem
      rw [count_cons_self_key]
      constructor
      · rintro ⟨-, h2⟩
        omega
      · rintro ⟨h1, -⟩
        exfalso
        apply h1
        simp [List.mem_append]
    · rw [count_cons_ne_key hyx]
      constructor
      · rintro ⟨h1, h2⟩
        refine ⟨?_, h2⟩
        simp only [List.mem_append, List.mem_singleton]
        rintro (h | h)
        · exact h1 h
        · exact hyx h
      · rintro ⟨h1, h2⟩
        refine ⟨?_, h2⟩
        intro h
        exact h1 (by simp [List.mem_append, h])
  by_cases hzero : R'.count x = 0
  · have hxnot : x ∉ R' := by
      intro hmem
      exact absurd (List.count_pos_iff.mpr hmem) (by omega)
    have hxtf : x ∉ R'.toFinset := fun h => hxnot (List.mem_toFinset.mp h)
    rw [if_pos ⟨hx, by rw [count_cons_self_key, hzero]⟩, hcong, if_pos hzero]
    rw [Finset.card_insert_of_not_mem (fun h => hxtf (Finset.mem_of_mem_filter _ h))]
  · have hone : R'.count x = 1 := by omega
    rw [if_neg, hcong, if_neg hzero]
    · omega
    · rintro ⟨-, h2⟩
      rw [count_cons_self_key, hone] at h2
      omega

end Day18

namespace Day18

theorem esaAux_eval {coords : List Coord} :
    ∀ (rest seen : List BoundedPlane) (faces : Int),
      (∀ q ∈ seen, q ∈ all_planes coords) →
      (∀ p ∈ rest, p ∈ all_planes coords) →
      (seen.map faceKey).Nodup →
      (∀ x, (seen.map faceKey).count x + (rest.map faceKey).count x ≤ 2) →
      esaAux seen rest faces =
        faces + onceNewK (seen.map faceKey) (rest.map faceKey)
          - hitsK (seen.map faceKey) (rest.map faceKey) := by
  intro rest
  induction rest with
  | nil =>
      intro seen faces _ _ _ _
      simp [esaAux_nil, onceNewK, hitsK]
  | cons p rest' ih =>
      intro seen faces hseen hrest hnd hcnt
      have hp : p ∈ all_planes coords := hrest p (List.mem_cons_self p rest')
      have hrest' : ∀ q ∈ rest', q ∈ all_planes coords :=
        fun q hq => hrest q (List.mem_cons_of_mem _ hq)
      have hmapcons : (p :: rest').map faceKey = faceKey p :: rest'.map faceKey :=
        List.map_cons _ _ _
      by_cases hmem : faceKey p ∈ seen.map faceKey
      · have hany : (seen.any fun q => bpEqb q p) = true :=
          (any_bpEqb_iff hseen hp).mpr hmem
        rw [esaAux_cons, if_pos hany]
        have hcnt' : ∀ x, (seen.map faceKey).count x + (rest'.map faceKey).count x ≤ 2 := by
          intro x
          have := hcnt x
          rw [hmapcons] at this
          by_cases hxp : x = faceKey p
          · subst hxp
            rw [count_cons_self_key] at this
            omega
          · rw [count_cons_ne_key hxp] at this
            omega
        rw [ih seen (faces - 1) hseen hrest' hnd hcnt']
        rw [hmapcons, hitsK_cons_mem hmem, onceNewK_cons_mem hmem]
        push_cast
        ring
      · have hany : ¬ ((seen.any fun q => bpEqb q p) = true) :=
          fun h => hmem ((any_bpEqb_iff hseen hp).mp h)
        rw [esaAux_cons, if_neg hany]
        have hmapapp : (seen ++ [p]).map faceKey = seen.map faceKey ++ [faceKey p] := by
          rw [List.map_append]
          rfl
        have hseen' : ∀ q ∈ seen ++ [p], q ∈ all_planes coords := by
          intro q hq
          rcases List.mem_append.mp hq with h | h
          · exact hseen q h
          · rw [List.mem_singleton.mp h]
            exact hp
        have hnd' : ((seen ++ [p]).map faceKey).Nodup := by
          rw [hmapapp]
          rw [List.nodup_append]
          refine ⟨hnd, List.nodup_singleton _, ?_⟩
          intro a ha hb
          rw [List.mem_singleton] at hb
          exact hmem (hb ▸ ha)
        have hcntp : (rest'.map faceKey).count (faceKey p) ≤ 1 := by
          have := hcnt (faceKey p)
          rw [hmapcons, count_cons_self_key] at this
          omega
        have hcnt'' : ∀ x,
            ((seen ++ [p]).map faceKey).count x + (rest'.map faceKey).count x ≤ 2 := by
          intro x
          have h0 := hcnt x
          rw [hmapcons] at h0
          rw [hmapapp, List.count_append]
          by_cases hxp : x = faceKey p
          · subst hxp
            rw [count_cons_self_key] at h0
            have hself : List.count (faceKey p) [faceKey p] = 1 := by simp
            rw [hself]
            omega
          · rw [count_cons_ne_key hxp] at h0
            have : List.count x [faceKey p] = 0 := by
              rw [List.count_eq_zero]
              rw [List.mem_singleton]
              exact hxp
            rw [this]
            omega
        rw [ih (seen ++ [p]) (faces + 1) hseen' hrest' hnd' hcnt'']
        rw [hmapapp, hmapcons]
        rw [hitsK_cons_not_mem hmem, hitsK_append_singleton hmem,
          onceNewK_cons_not_mem hmem hcntp]
        by_cases hzero : (rest'.map faceKey).count (faceKey p) = 0
        · rw [if_pos hzero, hzero]
          push_cast
          ring
        · have hone : (rest'.map faceKey).count (faceKey p) = 1 := by omega
          rw [if_neg hzero, hone]
          push_cast
          ring

end Day18

namespace Day18

/-- Distinct keys occurring exactly once. -/
def onceCount (R : List (Coord × Coord)) : Nat :=
  (R.toFinset.filter (fun x => R.count x = 1)).card

/-- Distinct keys occurring exactly twice. -/
def twiceCount (R : List (Coord × Coord)) : Nat :=
  (R.toFinset.filter (fun x => R.count x = 2)).card

theorem onceNewK_nil_left (R : List (Coord × Coord)) :
    onceNewK [] R = onceCount R := by
  unfold onceNewK onceCount
  refine congrArg Finset.card (Finset.filter_congr ?_)
  intro y hy
  simp

theorem hitsK_nil_left (R : List (Coord × Coord)) : hitsK [] R = 0 := by
  induction R with
  | nil => rfl
  | cons y R ih => simp [hitsK, ih]

theorem sum_toFinset_count (R : List (Coord × Coord)) :
    ∑ a in R.toFinset, R.count a = R.length := by
  induction R with
  | nil => simp
  | cons y R ih =>
      rw [List.toFinset_cons, List.length_cons]
      by_cases hy : y ∈ R
      · have hins : insert y R.toFinset = R.toFinset :=
          Finset.insert_eq_self.mpr (List.mem_toFinset.mpr hy)
        rw [hins]
        have hsplit : ∀ a ∈ R.toFinset,
            (y :: R).count a = R.count a + (if a = y then 1 else 0) := by
          intro a _
          by_cases hay : a = y
          · subst hay
            rw [count_cons_self_key]
            simp
          · rw [count_cons_ne_key hay]
            simp [hay]
        rw [Finset.sum_congr rfl hsplit, Finset.sum_add_distrib, ih]
        have hone : ∑ a in R.toFinset, (if a = y then 1 else 0) = 1 := by
          rw [Finset.sum_ite_eq' R.toFinset y (fun _ => 1)]
          simp [List.mem_toFinset.mpr hy]
        omega
      · have hnot : y ∉ R.toFinset := fun h => hy (List.mem_toFinset.mp h)
        rw [Finset.sum_insert hnot]
        have hcy : (y :: R).count y = 1 := by
          rw [count_cons_self_key, List.count_eq_zero.mpr hy]
        rw [hcy]
        have hsplit : ∀ a ∈ R.toFinset, (y :: R).count a = R.count a := by
          intro a ha
          have hay : a ≠ y := fun h => hnot (h ▸ ha)
          rw [count_cons_ne_key hay]
        rw [Finset.sum_congr rfl hsplit, ih]
        omega

theorem length_eq_once_add_two_twice {R : List (Coord × Coord)}
    (hle : ∀ x, R.count x ≤ 2) :
    R.length = onceCount R + 2 * twiceCount R := by
  classical
  have hsum : ∑ a in R.toFinset, R.count a = R.length := sum_toFinset_count R
  rw [← hsum, ← Finset.sum_filter_add_sum_filter_not R.toFinset (fun x => R.count x = 1)]
  have h1 : ∑ a in R.toFinset.filter (fun x => R.count x = 1), R.count a =
      onceCount R := by
    unfold onceCount
    rw [Finset.sum_congr rfl (fun x hx => (Finset.mem_filter.mp hx).2)]
    simp
  have h2 : ∑ a in R.toFinset.filter (fun x => ¬ R.count x = 1), R.count a =
      2 * twiceCount R := by
    unfold twiceCount
    have hset : R.toFinset.filter (fun x => ¬ R.count x = 1) =
        R.toFinset.filter (fun x => R.count x = 2) := by
      refine Finset.filter_congr ?_
      intro x hx
      have hmem : x ∈ R := List.mem_toFinset.mp hx
      have hpos : 1 ≤ R.count x := List.count_pos_iff.mpr hmem
      have := hle x
      constructor
      · intro h
        omega
      · intro h
        omega
    rw [hset]
    rw [Finset.sum_congr rfl (fun x hx => (Finset.mem_filter.mp hx).2)]
    rw [Finset.sum_const, smul_eq_mul, Nat.mul_comm]
  rw [h1, h2]

end Day18

namespace Day18

theorem addp_inj {c c' u : Coord} (h : addp c u = addp c' u) : c = c' := by
  have hx := congrArg Coord.x h
  have hy := congrArg Coord.y h
  have hz := congrArg Coord.z h
  simp only [addp] at hx hy hz
  ext <;> omega

theorem subp_addp (c u : Coord) : subp (addp c u) u = c := by
  ext <;> simp [subp, addp]

theorem addp_subp (r u : Coord) : addp (subp r u) u = r := by
  ext <;> simp [subp, addp]

/-- Keys of one axis whose two adjacent cubes are both present. -/
def part2list (coords : List Coord) (u : Coord) : List (Coord × Coord) :=
  (coords.filter (fun c => decide (addp c u ∈ coords))).map (fun c => (u, addp c u))

/-- All keys shared by two cubes: one sublist per axis. -/
def pairKeys (coords : List Coord) : List (Coord × Coord) :=
  part2list coords ux ++ part2list coords uy ++ part2list coords uz

theorem mem_part2list {coords : List Coord} {u : Coord} {x : Coord × Coord} :
    x ∈ part2list coords u ↔
      ∃ c ∈ coords, addp c u ∈ coords ∧ x = (u, addp c u) := by
  unfold part2list
  simp only [List.mem_map, List.mem_filter, decide_eq_true_eq]
  constructor
  · rintro ⟨c, ⟨hc, hcu⟩, rfl⟩
    exact ⟨c, hc, hcu, rfl⟩
  · rintro ⟨c, hc, hcu, rfl⟩
    exact ⟨c, ⟨hc, hcu⟩, rfl⟩

theorem part2list_nodup {coords : List Coord} (hnd : coords.Nodup) (u : Coord) :
    (part2list coords u).Nodup := by
  unfold part2list
  refine List.Nodup.map_on ?_ (hnd.filter _)
  intro a _ b _ hab
  have h2 := congrArg Prod.snd hab
  simp only at h2
  exact addp_inj h2

theorem part2list_first {coords : List Coord} {u : Coord} {x : Coord × Coord}
    (hx : x ∈ part2list coords u) : x.1 = u := by
  obtain ⟨c, -, -, rfl⟩ := mem_part2list.mp hx
  rfl

theorem pairKeys_nodup {coords : List Coord} (hnd : coords.Nodup) :
    (pairKeys coords).Nodup := by
  unfold pairKeys
  rw [List.nodup_append, List.nodup_append]
  refine ⟨⟨part2list_nodup hnd ux, part2list_nodup hnd uy, ?_⟩,
    part2list_nodup hnd uz, ?_⟩
  · intro a ha hb
    have h1 := part2list_first ha
    have h2 := part2list_first hb
    rw [h1] at h2
    simp [ux, uy, Coord.ext_iff] at h2
  · intro a ha hb
    rw [List.mem_append] at ha
    have h2 := part2list_first hb
    rcases ha with ha | ha
    · have h1 := part2list_first ha
      rw [h1] at h2
      simp [ux, uz, Coord.ext_iff] at h2
    · have h1 := part2list_first ha
      rw [h1] at h2
      simp [uy, uz, Coord.ext_iff] at h2

theorem length_filter_eq_countP (p : Coord → Bool) (l : List Coord) :
    (l.filter p).length = l.countP p := by
  induction l with
  | nil => rfl
  | cons c rest ih =>
      by_cases hc : p c <;> simp [List.filter_cons, List.countP_cons, hc, ih]

theorem pairKeys_length (coords : List Coord) :
    (pairKeys coords).length =
      coords.countP (fun c => decide (addp c ux ∈ coords)) +
      coords.countP (fun c => decide (addp c uy ∈ coords)) +
      coords.countP (fun c => decide (addp c uz ∈ coords)) := by
  unfold pairKeys part2list
  simp [List.length_append, List.length_map, length_filter_eq_countP]
  omega

end Day18

namespace Day18

theorem mem_pairKeys_iff {coords : List Coord} (hnd : coords.Nodup)
    (hrange : ∀ c ∈ coords, InRange c) {x : Coord × Coord} :
    x ∈ pairKeys coords ↔
      (x ∈ (all_planes coords).map faceKey ∧
        ((all_planes coords).map faceKey).count x = 2) := by
  constructor
  · intro hx
    have hform : ∃ u, (u = ux ∨ u = uy ∨ u = uz) ∧ x ∈ part2list coords u := by
      unfold pairKeys at hx
      rw [List.mem_append, List.mem_append] at hx
      rcases hx with (hx | hx) | hx
      · exact ⟨ux, Or.inl rfl, hx⟩
      · exact ⟨uy, Or.inr (Or.inl rfl), hx⟩
      · exact ⟨uz, Or.inr (Or.inr rfl), hx⟩
    obtain ⟨u, hu, hx⟩ := hform
    obtain ⟨c, hc, hcu, rfl⟩ := mem_part2list.mp hx
    have hcount := count_M hnd hrange hu (addp c u)
    rw [if_pos hcu, subp_addp, if_pos hc] at hcount
    refine ⟨?_, hcount⟩
    rw [← List.count_pos_iff, hcount]
    omega
  · rintro ⟨hmem, hcount⟩
    have hu := firstComp_mem_units hrange hmem
    have hxpair : x = (x.1, x.2) := rfl
    rw [hxpair] at hcount ⊢
    rw [count_M hnd hrange hu x.2] at hcount
    have hboth : x.2 ∈ coords ∧ subp x.2 x.1 ∈ coords := by
      constructor
      · by_contra h
        rw [if_neg h] at hcount
        split_ifs at hcount <;> omega
      · by_contra h
        rw [if_neg h] at hcount
        split_ifs at hcount <;> omega
    have hinpart : (x.1, x.2) ∈ part2list coords x.1 := by
      refine mem_part2list.mpr ⟨subp x.2 x.1, hboth.2, ?_, ?_⟩
      · rw [addp_subp]
        exact hboth.1
      · rw [addp_subp]
    unfold pairKeys
    rw [List.mem_append, List.mem_append]
    rcases hu with h | h | h
    · exact Or.inl (Or.inl (by rw [← h]; exact hinpart))
    · exact Or.inl (Or.inr (by rw [← h]; exact hinpart))
    · exact Or.inr (by rw [← h]; exact hinpart)

theorem twiceCount_eq_pairKeys {coords : List Coord} (hnd : coords.Nodup)
    (hrange : ∀ c ∈ coords, InRange c) :
    twiceCount ((all_planes coords).map faceKey) = (pairKeys coords).length := by
  rw [← List.toFinset_card_of_nodup (pairKeys_nodup hnd)]
  unfold twiceCount
  apply congrArg Finset.card
  ext a
  rw [Finset.mem_filter, List.mem_toFinset, List.mem_toFinset,
    mem_pairKeys_iff hnd hrange]

theorem countP_eq_indicator {l : List Coord} (hnd : l.Nodup) (a : Coord)
    (p : Coord → Bool) (hp : ∀ d, p d = true ↔ d = a) :
    l.countP p = if a ∈ l then 1 else 0 := by
  induction l with
  | nil => simp
  | cons c rest ih =>
      obtain ⟨hcn, hrest⟩ := List.nodup_cons.mp hnd
      rw [List.countP_cons]
      by_cases hca : p c = true
      · have hceq : c = a := (hp c).mp hca
        subst hceq
        have hzero : rest.countP p = 0 := by
          rw [List.countP_eq_zero]
          intro d hd hpd
          exact hcn (((hp d).mp hpd) ▸ hd)
        rw [hzero, hca, if_pos (List.mem_cons_self c rest)]
        simp
      · have hcne : c ≠ a := fun h => hca ((hp c).mpr h)
        rw [ih hrest]
        have : (a ∈ c :: rest) ↔ (a ∈ rest) := by
          rw [List.mem_cons]
          constructor
          · rintro (h | h)
            · exact absurd h.symm hcne
            · exact h
          · exact Or.inr
        simp only [if_neg hca, this]
        simp

theorem countP_or_disjoint {l : List Coord} (p q : Coord → Bool)
    (h : ∀ d ∈ l, ¬(p d = true ∧ q d = true)) :
    l.countP (fun d => p d || q d) = l.countP p + l.countP q := by
  induction l with
  | nil => rfl
  | cons c rest ih =>
      have hrest : ∀ d ∈ rest, ¬(p d = true ∧ q d = true) :=
        fun d hd => h d (List.mem_cons_of_mem _ hd)
      rw [List.countP_cons, List.countP_cons, List.countP_cons, ih hrest]
      by_cases hp : p c = true
      · have hq : ¬ q c = true := fun hq => h c (List.mem_cons_self c rest) ⟨hp, hq⟩
        simp [hp, hq]
        omega
      · by_cases hq : q c = true
        · simp [hp, hq]
          omega
        · simp [hp, hq]

end Day18

namespace Day18

theorem sharesFace_iff (c d : Coord) :
    sharesFace c d = true ↔
      (d = addp c ux ∨ d = subp c ux ∨ d = addp c uy ∨ d = subp c uy ∨
        d = addp c uz ∨ d = subp c uz) := by
  unfold sharesFace addp subp ux uy uz
  rw [beq_iff_eq]
  simp only [Coord.ext_iff, Coord.mk.injEq]
  omega

theorem countP_sharesFace {l : List Coord} (hnd : l.Nodup) (c : Coord) :
    l.countP (fun d => sharesFace c d) =
      ((if addp c ux ∈ l then 1 else 0) + (if subp c ux ∈ l then 1 else 0)) +
      ((if addp c uy ∈ l then 1 else 0) + (if subp c uy ∈ l then 1 else 0)) +
      ((if addp c uz ∈ l then 1 else 0) + (if subp c uz ∈ l then 1 else 0)) := by
  have h12 : addp c ux ≠ subp c ux := by
    simp only [ne_eq, addp, subp, ux, Coord.mk.injEq, not_and]
    intro h
    omega
  have h13 : addp c ux ≠ addp c uy := by
    simp only [ne_eq, addp, ux, uy, Coord.mk.injEq, not_and]
    intro h
    omega
  have h14 : addp c ux ≠ subp c uy := by
    simp only [ne_eq, addp, subp, ux, uy, Coord.mk.injEq, not_and]
    intro h
    omega
  have h15 : addp c ux ≠ addp c uz := by
    simp only [ne_eq, addp, ux, uz, Coord.mk.injEq, not_and]
    intro h
    omega
  have h16 : addp c ux ≠ subp c uz := by
    simp only [ne_eq, addp, subp, ux, uz, Coord.mk.injEq, not_and]
    intro h
    omega
  have h23 : subp c ux ≠ addp c uy := by
    simp only [ne_eq, addp, subp, ux, uy, Coord.mk.injEq, not_and]
    intro h
    omega
  have h24 : subp c ux ≠ subp c uy := by
    simp only [ne_eq, subp, ux, uy, Coord.mk.injEq, not_and]
    intro h
    omega
  have h25 : subp c ux ≠ addp c uz := by
    simp only [ne_eq, addp, subp, ux, uz, Coord.mk.injEq, not_and]
    intro h
    omega
  have h26 : subp c ux ≠ subp c uz := by
    simp only [ne_eq, subp, ux, uz, Coord.mk.injEq, not_and]
    intro h
    omega
  have h34 : addp c uy ≠ subp c uy := by
    simp only [ne_eq, addp, subp, uy, Coord.mk.injEq, not_and]
    intro h
    omega
  have h35 : addp c uy ≠ addp c uz := by
    simp only [ne_eq, addp, uy, uz, Coord.mk.injEq, not_and]
    intro h
    omega
  have h36 : addp c uy ≠ subp c uz := by
    simp only [ne_eq, addp, subp, uy, uz, Coord.mk.injEq, not_and]
    intro h
    omega
  have h45 : subp c uy ≠ addp c uz := by
    simp only [ne_eq, addp, subp, uy, uz, Coord.mk.injEq, not_and]
    intro h
    omega
  have h46 : subp c uy ≠ subp c uz := by
    simp only [ne_eq, subp, uy, uz, Coord.mk.injEq, not_and]
    intro h
    omega
  have h56 : addp c uz ≠ subp c uz := by
    simp only [ne_eq, addp, subp, uz, Coord.mk.injEq, not_and]
    intro h
    omega
  have key : ∀ d ∈ l, ((fun d => sharesFace c d) d = true ↔
      (fun d => (decide (d = addp c ux) ||
        (decide (d = subp c ux) ||
          (decide (d = addp c uy) ||
            (decide (d = subp c uy) ||
              (decide (d = addp c uz) || decide (d = subp c uz))))))) d = true) := by
    intro d _
    rw [sharesFace_iff]
    simp [Bool.or_eq_true]
  rw [List.countP_congr key]
  rw [countP_or_disjoint _ _ (by
    rintro d - ⟨hd1, hd2⟩
    rw [decide_eq_true_eq] at hd1
    simp only [Bool.or_eq_true, decide_eq_true_eq] at hd2
    subst hd1
    rcases hd2 with h | h | h | h | h
    exacts [h12 h, h13 h, h14 h, h15 h, h16 h])]
  rw [countP_or_disjoint _ _ (by
    rintro d - ⟨hd1, hd2⟩
    rw [decide_eq_true_eq] at hd1
    simp only [Bool.or_eq_true, decide_eq_true_eq] at hd2
    subst hd1
    rcases hd2 with h | h | h | h
    exacts [h23 h, h24 h, h25 h, h26 h])]
  rw [countP_or_disjoint _ _ (by
    rintro d - ⟨hd1, hd2⟩
    rw [decide_eq_true_eq] at hd1
    simp only [Bool.or_eq_true, decide_eq_true_eq] at hd2
    subst hd1
    rcases hd2 with h | h | h
    exacts [h34 h, h35 h, h36 h])]
  rw [countP_or_disjoint _ _ (by
    rintro d - ⟨hd1, hd2⟩
    rw [decide_eq_true_eq] at hd1
    simp only [Bool.or_eq_true, decide_eq_true_eq] at hd2
    subst hd1
    rcases hd2 with h | h
    exacts [h45 h, h46 h])]
  rw [countP_or_disjoint _ _ (by
    rintro d - ⟨hd1, hd2⟩
    rw [decide_eq_true_eq] at hd1
    rw [decide_eq_true_eq] at hd2
    subst hd1
    exact h56 hd2)]
  rw [countP_eq_indicator hnd (addp c ux) _ (fun d => by simp),
    countP_eq_indicator hnd (subp c ux) _ (fun d => by simp),
    countP_eq_indicator hnd (addp c uy) _ (fun d => by simp),
    countP_eq_indicator hnd (subp c uy) _ (fun d => by simp),
    countP_eq_indicator hnd (addp c uz) _ (fun d => by simp),
    countP_eq_indicator hnd (subp c uz) _ (fun d => by simp)]
  omega

end Day18

namespace Day18

theorem sharedFacePairs_eq {coords : List Coord} (hnd : coords.Nodup) :
    sharedFacePairs coords =
      coords.countP (fun c => decide (addp c ux ∈ coords)) +
      coords.countP (fun c => decide (addp c uy ∈ coords)) +
      coords.countP (fun c => decide (addp c uz ∈ coords)) := by
  induction coords with
  | nil => simp [sharedFacePairs]
  | cons c rest ih =>
      obtain ⟨hcn, hrest⟩ := List.nodup_cons.mp hnd
      have ihr := ih hrest
      have haxis : ∀ u : Coord, (u = ux ∨ u = uy ∨ u = uz) →
          (c :: rest).countP (fun d => decide (addp d u ∈ c :: rest)) =
            ((if addp c u ∈ rest then 1 else 0) + (if subp c u ∈ rest then 1 else 0)) +
              rest.countP (fun d => decide (addp d u ∈ rest)) := by
        intro u hu
        rw [List.countP_cons]
        have hne : addp c u ≠ c := by
          rcases hu with rfl | rfl | rfl <;>
            · simp only [ne_eq, addp, ux, uy, uz, Coord.ext_iff]
              intro h
              omega
        have hsplit : rest.countP (fun d => decide (addp d u ∈ c :: rest)) =
            rest.countP (fun d => decide (addp d u = c)) +
              rest.countP (fun d => decide (addp d u ∈ rest)) := by
          have hcongr : ∀ d ∈ rest,
              ((fun d => decide (addp d u ∈ c :: rest)) d = true ↔
                (fun d => decide (addp d u = c) || decide (addp d u ∈ rest)) d = true) := by
            intro d _
            simp [List.mem_cons]
          rw [List.countP_congr hcongr]
          refine countP_or_disjoint _ _ ?_
          rintro d hd ⟨hd1, hd2⟩
          rw [decide_eq_true_eq] at hd1 hd2
          rw [hd1] at hd2
          exact hcn hd2
        have hindicator : rest.countP (fun d => decide (addp d u = c)) =
            if subp c u ∈ rest then 1 else 0 := by
          refine countP_eq_indicator hrest (subp c u) _ ?_
          intro d
          rw [decide_eq_true_eq]
          constructor
          · intro h
            rw [← h, subp_addp]
          · intro h
            rw [h, addp_subp]
        rw [hsplit, hindicator]
        by_cases hm : addp c u ∈ rest
        · have h1 : decide (addp c u ∈ c :: rest) = true := by
            simp [List.mem_cons, hm]
          rw [h1, if_pos hm]
          norm_num
          omega
        · have h1 : decide (addp c u ∈ c :: rest) = false := by
            simp [List.mem_cons, hm, hne]
          rw [h1, if_neg hm, if_neg (by simp : ¬ ((false : Bool) = true))]
          omega
      have hx := haxis ux (Or.inl rfl)
      have hy := haxis uy (Or.inr (Or.inl rfl))
      have hz := haxis uz (Or.inr (Or.inr rfl))
      show rest.countP (fun d => sharesFace c d) + sharedFacePairs rest = _
      rw [hx, hy, hz, countP_sharesFace hrest c, ihr]
      omega

theorem all_planes_length (coords : List Coord) :
    (all_planes coords).length = 6 * coords.length := by
  unfold all_planes
  induction coords with
  | nil => rfl
  | cons c rest ih =>
      simp only [List.map_cons, List.flatten_cons, List.length_append, ih,
        List.length_cons]
      simp [PLANES]
      omega

end Day18

/-- C5 (amended): for every list of pairwise-distinct cube coordinates whose
components all lie in `[-128, 126]` (so that the `i8` additions
`coord + offset` cannot overflow), the signed face count computed by
`exterior_surface_area (all_planes coords)` ends non-negative (the
`assert!(faces >= 0)` cannot fail) and the returned value is `6*n - 2*p`,
where `n` is the number of cubes and `p` the number of unordered pairs of
cubes sharing a face. -/
theorem day18_surface_area_formula (coords : List Day18.Coord)
    (hnd : coords.Nodup) (hrange : ∀ c ∈ coords, Day18.InRange c) :
    0 ≤ Day18.esaAux [] (Day18.all_planes coords) 0 ∧
    2 * Day18.sharedFacePairs coords ≤ 6 * coords.length ∧
    Day18.exterior_surface_area (Day18.all_planes coords) =
      some (6 * coords.length - 2 * Day18.sharedFacePairs coords) := by
  have hle : ∀ x, ((Day18.all_planes coords).map Day18.faceKey).count x ≤ 2 :=
    Day18.count_M_le_two hnd hrange
  have hrun := @Day18.esaAux_eval coords (Day18.all_planes coords)
    [] 0 (by simp) (fun p hp => hp) (by simp)
    (by
      intro x
      simpa using hle x)
  simp only [List.map_nil] at hrun
  rw [Day18.onceNewK_nil_left, Day18.hitsK_nil_left] at hrun
  have hident := @Day18.length_eq_once_add_two_twice
    ((Day18.all_planes coords).map Day18.faceKey) hle
  have hlen : ((Day18.all_planes coords).map Day18.faceKey).length =
      6 * coords.length := by
    rw [List.length_map, Day18.all_planes_length]
  have htwice := Day18.twiceCount_eq_pairKeys hnd hrange
  have hpairs : (Day18.pairKeys coords).length = Day18.sharedFacePairs coords := by
    rw [Day18.pairKeys_length, Day18.sharedFacePairs_eq hnd]
  have hesa : Day18.esaAux [] (Day18.all_planes coords) 0 =
      ((Day18.onceCount ((Day18.all_planes coords).map Day18.faceKey) : Int)) := by
    rw [hrun]
    omega
  refine ⟨by rw [hesa]; omega, by omega, ?_⟩
  unfold Day18.exterior_surface_area
  rw [if_pos (by rw [hesa]; omega : (0:Int) ≤ _)]
  congr 1
  rw [hesa]
  omega


instance : DecidablePred Day18.InRange := fun c => by
  unfold Day18.InRange
  infer_instance

/-- Witness for C5 (amended): the two adjacent cubes `(0,0,0)` and `(1,0,0)`
(distinct, in range, one shared face): the assert holds and the area is
`6*2 - 2*1 = 10`. -/
theorem day18_surface_area_formula_witness :
    0 ≤ Day18.esaAux []
        (Day18.all_planes
          [{ x := 0, y := 0, z := 0 }, { x := 1, y := 0, z := 0 }]) 0 ∧
    2 * Day18.sharedFacePairs
        [{ x := 0, y := 0, z := 0 }, { x := 1, y := 0, z := 0 }] ≤ 6 * 2 ∧
    Day18.exterior_surface_area
        (Day18.all_planes
          [{ x := 0, y := 0, z := 0 }, { x := 1, y := 0, z := 0 }]) =
      some (6 * 2 -
        2 * Day18.sharedFacePairs
          [{ x := 0, y := 0, z := 0 }, { x := 1, y := 0, z := 0 }]) := by
  have h := day18_surface_area_formula
    [{ x := 0, y := 0, z := 0 }, { x := 1, y := 0, z := 0 }]
    (by decide) (by decide)
  simpa using h

namespace Day12

/-- `u32::MAX`, the initial "infinity" of the `gs`/`fs` vectors in
`src/bin/12.rs`. -/
def UMAX : Nat := 4294967295

/-- State of the A* loop in `astar_from_point` (`src/bin/12.rs`): the `gs` and
`fs` score vectors (as functions on cell indices) and the fringe set.  `Nat`
scores are exact for the `u32`s of the source: every finite score assigned is
below `UMAX` (proved in the invariants), so no `u32` addition overflows. -/
structure AState (n : Nat) where
  gs : Fin n → Nat
  fs : Fin n → Nat
  fringe : Finset (Fin n)

variable {n : Nat}

/-- One relaxation (the body of the `for &neighbour in &graph[cur]` loop in
`src/bin/12.rs`): if the tentative score improves `gs[neighbour]`, update
`gs`/`fs` and insert the neighbour into the fringe. -/
def relaxOne (hf : Fin n → Nat) (cur : Fin n) (st : AState n) (nb : Fin n) :
    AState n :=
  if st.gs cur + 1 < st.gs nb then
    { gs := Function.update st.gs nb (st.gs cur + 1),
      fs := Function.update st.fs nb ((st.gs cur + 1) + hf nb),
      fringe := insert nb st.fringe }
  else st

/-- Relax all neighbours of `cur` in order. -/
def relaxAll (G : Fin n → List (Fin n)) (hf : Fin n → Nat) (cur : Fin n)
    (st : AState n) : AState n :=
  (G cur).foldl (relaxOne hf cur) st

/-- Termination measure: twice the total of all `gs` scores plus the fringe
size. -/
def mu (st : AState n) : Nat :=
  2 * (∑ v, st.gs v) + st.fringe.card

theorem gs_relaxOne_le (hf : Fin n → Nat) (cur : Fin n) (st : AState n)
    (nb v : Fin n) : (relaxOne hf cur st nb).gs v ≤ st.gs v := by
  unfold relaxOne
  split
  · rename_i hlt
    dsimp only
    by_cases hv : v = nb
    · subst hv
      rw [Function.update_same]
      omega
    · rw [Function.update_noteq hv]
  · exact le_refl _

theorem mu_relaxOne_le (hf : Fin n → Nat) (cur : Fin n) (st : AState n)
    (nb : Fin n) : mu (relaxOne hf cur st nb) ≤ mu st := by
  unfold relaxOne
  split
  · rename_i hlt
    unfold mu
    dsimp only
    have hsum : (∑ v, Function.update st.gs nb (st.gs cur + 1) v) + st.gs nb =
        (∑ v, st.gs v) + (st.gs cur + 1) := by
      rw [Finset.sum_update_of_mem (Finset.mem_univ nb)]
      have hsd : (∑ v in Finset.univ \ {nb}, st.gs v) + st.gs nb = ∑ v, st.gs v := by
        rw [Finset.sdiff_singleton_eq_erase]
        exact Finset.sum_erase_add _ _ (Finset.mem_univ nb)
      omega
    have hcard : (insert nb st.fringe).card ≤ st.fringe.card + 1 :=
      Finset.card_insert_le _ _
    omega
  · exact le_refl _

theorem mu_relaxAll_le (G : Fin n → List (Fin n)) (hf : Fin n → Nat)
    (cur : Fin n) (st : AState n) : mu (relaxAll G hf cur st) ≤ mu st := by
  unfold relaxAll
  generalize G cur = l
  induction l generalizing st with
  | nil => exact le_refl _
  | cons nb l ih =>
      rw [List.foldl_cons]
      exact le_trans (ih _) (mu_relaxOne_le hf cur st nb)

/-- The `while !fringe.is_empty()` loop of `astar_from_point`
(`src/bin/12.rs`), parametrised by the selection function `sel` that models
which minimal-`f` fringe element the sort-plus-`first` pop returns (the
HashSet iteration order makes the tie-break arbitrary). -/
def astarLoop (G : Fin n → List (Fin n)) (hf : Fin n → Nat)
    (sel : (st : AState n) → st.fringe.Nonempty → {x // x ∈ st.fringe})
    (st : AState n) : Fin n → Nat :=
  if hne : st.fringe.Nonempty then
    astarLoop G hf sel
      (relaxAll G hf (sel st hne).1
        { st with fringe := st.fringe.erase (sel st hne).1 })
  else st.gs
termination_by mu st
decreasing_by
  have h1 : mu (relaxAll G hf (sel st hne).1
      { st with fringe := st.fringe.erase (sel st hne).1 }) ≤
      mu { st with fringe := st.fringe.erase (sel st hne).1 } :=
    mu_relaxAll_le G hf (sel st hne).1 _
  have h2 : (st.fringe.erase (sel st hne).1).card < st.fringe.card :=
    Finset.card_erase_lt_of_mem (sel st hne).2
  unfold mu at *
  simp only at h1 ⊢
  omega

end Day12

namespace Day12

variable {n : Nat}

/-- Walks in the adjacency graph: `StepsTo G u v k` holds when there is a walk
of exactly `k` moves from `u` to `v`, each move following an adjacency-list
edge. -/
inductive StepsTo (G : Fin n → List (Fin n)) : Fin n → Fin n → Nat → Prop
  | refl (v : Fin n) : StepsTo G v v 0
  | tail {u v w : Fin n} {k : Nat} :
      StepsTo G u v k → w ∈ G v → StepsTo G u w (k + 1)

/-- A walk of `k` moves from some start cell to `v`. -/
def ReachIn (G : Fin n → List (Fin n)) (starts : List (Fin n)) (v : Fin n)
    (k : Nat) : Prop :=
  ∃ s ∈ starts, StepsTo G s v k

/-- Invariant of the A* loop state. -/
structure StInv (G : Fin n → List (Fin n)) (starts : List (Fin n))
    (st : AState n) : Prop where
  bound : ∀ v, st.gs v ≤ UMAX
  sound : ∀ v, st.gs v < UMAX → ReachIn G starts v (st.gs v)
  fringe_lt : ∀ v ∈ st.fringe, st.gs v < UMAX
  relaxed : ∀ u, u ∉ st.fringe → st.gs u < UMAX → ∀ v ∈ G u, st.gs v ≤ st.gs u + 1
  starts0 : ∀ v ∈ starts, st.gs v = 0

/-- Invariant while the neighbours in `done` of the popped vertex `cur` have
been relaxed. -/
structure MidInv (G : Fin n → List (Fin n)) (starts : List (Fin n))
    (cur : Fin n) (done : List (Fin n)) (st : AState n) : Prop where
  bound : ∀ v, st.gs v ≤ UMAX
  sound : ∀ v, st.gs v < UMAX → ReachIn G starts v (st.gs v)
  fringe_lt : ∀ v ∈ st.fringe, st.gs v < UMAX
  relaxed' : ∀ u, u ∉ st.fringe → u ≠ cur → st.gs u < UMAX →
    ∀ v ∈ G u, st.gs v ≤ st.gs u + 1
  starts0 : ∀ v ∈ starts, st.gs v = 0
  cur_lt : st.gs cur < UMAX
  cur_out : cur ∉ st.fringe
  done_rel : ∀ v ∈ done, st.gs v ≤ st.gs cur + 1

theorem relaxOne_mid {G : Fin n → List (Fin n)} {starts : List (Fin n)}
    {cur : Fin n} {done : List (Fin n)} {st : AState n} (hf : Fin n → Nat)
    {nb : Fin n} (hnb : nb ∈ G cur)
    (h : MidInv G starts cur done st) :
    MidInv G starts cur (done ++ [nb]) (relaxOne hf cur st nb) := by
  unfold relaxOne
  split
  · rename_i hlt
    have hnbcur : nb ≠ cur := by
      intro heq
      subst heq
      omega
    have hcurnb : cur ≠ nb := fun heq => hnbcur heq.symm
    have hscore_lt : st.gs cur + 1 < UMAX :=
      lt_of_lt_of_le hlt (h.bound nb)
    refine ⟨?_, ?_, ?_, ?_, ?_, ?_, ?_, ?_⟩
    · intro v
      dsimp only
      by_cases hv : v = nb
      · subst hv
        rw [Function.update_same]
        omega
      · rw [Function.update_noteq hv]
        exact h.bound v
    · intro v hvlt
      dsimp only at hvlt ⊢
      by_cases hv : v = nb
      · subst hv
        rw [Function.update_same] at hvlt ⊢
        obtain ⟨s, hs, hwalk⟩ := h.sound cur h.cur_lt
        exact ⟨s, hs, StepsTo.tail hwalk hnb⟩
      · rw [Function.update_noteq hv] at hvlt ⊢
        exact h.sound v hvlt
    · intro v hvmem
      dsimp only at hvmem ⊢
      by_cases hv : v = nb
      · subst hv
        rw [Function.update_same]
        omega
      · rw [Function.update_noteq hv]
        exact h.fringe_lt v (Finset.mem_of_mem_insert_of_ne hvmem hv)
    · intro u humem hucur hult v hvG
      dsimp only at humem hult ⊢
      have hunb : u ≠ nb := by
        intro heq
        subst heq
        exact humem (Finset.mem_insert_self u st.fringe)
      rw [Function.update_noteq hunb] at hult ⊢
      have hufr : u ∉ st.fringe :=
        fun hm => humem (Finset.mem_insert_of_mem hm)
      have hold := h.relaxed' u hufr hucur hult v hvG
      by_cases hv : v = nb
      · subst hv
        rw [Function.update_same]
        omega
      · rw [Function.update_noteq hv]
        exact hold
    · intro v hvs
      dsimp only
      by_cases hv : v = nb
      · subst hv
        have := h.starts0 v hvs
        omega
      · rw [Function.update_noteq hv]
        exact h.starts0 v hvs
    · dsimp only
      rw [Function.update_noteq hcurnb]
      exact h.cur_lt
    · dsimp only
      intro hmem
      rcases Finset.mem_insert.mp hmem with heq | hmem'
      · exact hnbcur heq.symm
      · exact h.cur_out hmem'
    · intro v hv
      dsimp only
      rw [Function.update_noteq hcurnb]
      rcases List.mem_append.mp hv with hv | hv
      · by_cases hvnb : v = nb
        · subst hvnb
          rw [Function.update_same]
        · rw [Function.update_noteq hvnb]
          exact h.done_rel v hv
      · rw [List.mem_singleton.mp hv]
        rw [Function.update_same]
  · rename_i hnlt
    refine ⟨h.bound, h.sound, h.fringe_lt, h.relaxed', h.starts0, h.cur_lt,
      h.cur_out, ?_⟩
    intro v hv
    rcases List.mem_append.mp hv with hv | hv
    · exact h.done_rel v hv
    · rw [List.mem_singleton.mp hv]
      omega

end Day12

namespace Day12

variable {n : Nat}

theorem foldl_mid {G : Fin n → List (Fin n)} {starts : List (Fin n)}
    {cur : Fin n} (hf : Fin n → Nat) :
    ∀ (todo done : List (Fin n)) (st : AState n),
      (∀ x ∈ todo, x ∈ G cur) →
      MidInv G starts cur done st →
      MidInv G starts cur (done ++ todo) (todo.foldl (relaxOne hf cur) st) := by
  intro todo
  induction todo with
  | nil =>
      intro done st _ h
      simpa using h
  | cons nb todo ih =>
      intro done st htodo h
      rw [List.foldl_cons]
      have hmid := relaxOne_mid hf (htodo nb (List.mem_cons_self nb todo)) h
      have := ih (done ++ [nb]) (relaxOne hf cur st nb)
        (fun x hx => htodo x (List.mem_cons_of_mem _ hx)) hmid
      simpa [List.append_assoc] using this

theorem stInv_relaxAll {G : Fin n → List (Fin n)} {starts : List (Fin n)}
    {st : AState n} (hf : Fin n → Nat) {cur : Fin n}
    (hcur : cur ∈ st.fringe) (h : StInv G starts st) :
    StInv G starts (relaxAll G hf cur { st with fringe := st.fringe.erase cur }) := by
  have hmid0 : MidInv G starts cur [] { st with fringe := st.fringe.erase cur } := by
    refine ⟨h.bound, h.sound, ?_, ?_, h.starts0, h.fringe_lt cur hcur, ?_, ?_⟩
    · intro v hv
      exact h.fringe_lt v (Finset.mem_of_mem_erase hv)
    · intro u humem hucur hult v hvG
      dsimp only at humem
      have : u ∉ st.fringe := by
        intro hm
        exact humem (Finset.mem_erase.mpr ⟨hucur, hm⟩)
      exact h.relaxed u this hult v hvG
    · exact Finset.not_mem_erase cur st.fringe
    · intro v hv
      simp at hv
  have hmid := foldl_mid hf (G cur) [] _ (fun x hx => hx) hmid0
  unfold relaxAll
  refine ⟨hmid.bound, hmid.sound, hmid.fringe_lt, ?_, hmid.starts0⟩
  intro u humem hult v hvG
  by_cases hucur : u = cur
  · subst hucur
    have := hmid.done_rel v (by simpa using hvG)
    omega
  · exact hmid.relaxed' u humem hucur hult v hvG

/-- What holds of the final `gs` vector when the loop exits. -/
def GFinal (G : Fin n → List (Fin n)) (starts : List (Fin n))
    (gsf : Fin n → Nat) : Prop :=
  (∀ v, gsf v ≤ UMAX) ∧
  (∀ v, gsf v < UMAX → ReachIn G starts v (gsf v)) ∧
  (∀ u, gsf u < UMAX → ∀ v ∈ G u, gsf v ≤ gsf u + 1) ∧
  (∀ v ∈ starts, gsf v = 0)

theorem astarLoop_final {G : Fin n → List (Fin n)} {starts : List (Fin n)}
    (hf : Fin n → Nat)
    (sel : (st : AState n) → st.fringe.Nonempty → {x // x ∈ st.fringe}) :
    ∀ (st : AState n), StInv G starts st →
      GFinal G starts (astarLoop G hf sel st) := by
  have H : ∀ (N : Nat) (st : AState n), mu st ≤ N → StInv G starts st →
      GFinal G starts (astarLoop G hf sel st) := by
    intro N
    induction N with
    | zero =>
        intro st hle hinv
        have hempty : ¬ st.fringe.Nonempty := by
          intro hne
          have := Finset.card_pos.mpr hne
          unfold mu at hle
          omega
        rw [astarLoop, dif_neg hempty]
        refine ⟨hinv.bound, hinv.sound, ?_, hinv.starts0⟩
        intro u hult v hvG
        exact hinv.relaxed u (fun hm => hempty ⟨u, hm⟩) hult v hvG
    | succ N ih =>
        intro st hle hinv
        rw [astarLoop]
        by_cases hne : st.fringe.Nonempty
        · rw [dif_pos hne]
          have hinv' := stInv_relaxAll hf (sel st hne).2 hinv
          refine ih _ ?_ hinv'
          have h1 := mu_relaxAll_le G hf (sel st hne).1
            { st with fringe := st.fringe.erase (sel st hne).1 }
          have h2 : (st.fringe.erase (sel st hne).1).card < st.fringe.card :=
            Finset.card_erase_lt_of_mem (sel st hne).2
          unfold mu at *
          simp only at h1 ⊢
          omega
        · rw [dif_neg hne]
          refine ⟨hinv.bound, hinv.sound, ?_, hinv.starts0⟩
          intro u hult v hvG
          exact hinv.relaxed u (fun hm => hne ⟨u, hm⟩) hult v hvG
  intro st hinv
  exact H (mu st) st le_rfl hinv

end Day12

namespace Day12

variable {n : Nat}

/-- Reference breadth-first search: the set of cells reachable from the start
cells in at most `k` moves, level by level. -/
def bfsLevels (G : Fin n → List (Fin n)) (starts : List (Fin n)) : Nat → Finset (Fin n)
  | 0 => starts.toFinset
  | k + 1 =>
      bfsLevels G starts k ∪
        Finset.univ.filter (fun v => ∃ u ∈ bfsLevels G starts k, v ∈ G u)

theorem bfs_mono_succ (G : Fin n → List (Fin n)) (starts : List (Fin n)) (k : Nat) :
    bfsLevels G starts k ⊆ bfsLevels G starts (k + 1) :=
  Finset.subset_union_left

theorem bfs_mono (G : Fin n → List (Fin n)) (starts : List (Fin n)) {k m : Nat}
    (h : k ≤ m) : bfsLevels G starts k ⊆ bfsLevels G starts m := by
  induction m with
  | zero =>
      rw [Nat.le_zero.mp h]
  | succ m ih =>
      rcases Nat.lt_or_ge k (m + 1) with hlt | hge
      · exact (ih (Nat.lt_succ_iff.mp hlt)).trans (bfs_mono_succ G starts m)
      · rw [Nat.le_antisymm h hge]

theorem bfs_stab {G : Fin n → List (Fin n)} {starts : List (Fin n)} {k : Nat}
    (h : bfsLevels G starts (k + 1) = bfsLevels G starts k) :
    ∀ j, bfsLevels G starts (k + j) = bfsLevels G starts k := by
  intro j
  induction j with
  | zero => rfl
  | succ j ih =>
      have : bfsLevels G starts (k + j + 1) =
          bfsLevels G starts (k + j) ∪
            Finset.univ.filter (fun v => ∃ u ∈ bfsLevels G starts (k + j), v ∈ G u) := rfl
      rw [show k + (j + 1) = k + j + 1 from rfl, this, ih]
      exact h

theorem stepsTo_zero {G : Fin n → List (Fin n)} {s v : Fin n}
    (h : StepsTo G s v 0) : s = v := by
  cases h
  rfl

theorem bfs_iff {G : Fin n → List (Fin n)} {starts : List (Fin n)} :
    ∀ {k : Nat} {v : Fin n},
      v ∈ bfsLevels G starts k ↔ ∃ j ≤ k, ReachIn G starts v j := by
  intro k
  induction k with
  | zero =>
      intro v
      constructor
      · intro hv
        exact ⟨0, le_refl 0, v, List.mem_toFinset.mp hv, StepsTo.refl v⟩
      · rintro ⟨j, hj, s, hs, hwalk⟩
        rw [Nat.le_zero.mp hj] at hwalk
        rw [← stepsTo_zero hwalk]
        exact List.mem_toFinset.mpr hs
  | succ k ih =>
      intro v
      constructor
      · intro hv
        rcases Finset.mem_union.mp hv with hv | hv
        · obtain ⟨j, hj, hreach⟩ := ih.mp hv
          exact ⟨j, Nat.le_succ_of_le hj, hreach⟩
        · obtain ⟨u, hu, hedge⟩ := (Finset.mem_filter.mp hv).2
          obtain ⟨j, hj, s, hs, hwalk⟩ := ih.mp hu
          exact ⟨j + 1, Nat.succ_le_succ hj, s, hs, StepsTo.tail hwalk hedge⟩
      · rintro ⟨j, hj, s, hs, hwalk⟩
        rcases Nat.lt_or_ge j (k + 1) with hlt | hge
        · exact Finset.mem_union_left _ (ih.mpr ⟨j, Nat.lt_succ_iff.mp hlt, s, hs, hwalk⟩)
        · have hj' : j = k + 1 := Nat.le_antisymm hj hge
          subst hj'
          cases hwalk with
          | tail hw hedge =>
              rename_i u
              exact Finset.mem_union_right _ (Finset.mem_filter.mpr
                ⟨Finset.mem_univ v, u, ih.mpr ⟨k, le_refl k, s, hs, hw⟩, hedge⟩)

theorem gfinal_le_walk {G : Fin n → List (Fin n)} {starts : List (Fin n)}
    {gsf : Fin n → Nat} (hg : GFinal G starts gsf) :
    ∀ {s v : Fin n} {k : Nat}, s ∈ starts → StepsTo G s v k → k < UMAX →
      gsf v ≤ k := by
  intro s v k hs hwalk
  revert hs
  induction hwalk with
  | refl =>
      intro hs _
      exact le_of_eq (hg.2.2.2 _ hs)
  | tail hw hedge ih =>
      intro hs hk
      rename_i u w k'
      have hk' : k' < UMAX := by omega
      have hu : gsf u ≤ k' := ih hs hk'
      have hult : gsf u < UMAX := lt_of_le_of_lt hu hk'
      have := hg.2.2.1 u hult w hedge
      omega

theorem bfs_card_or (G : Fin n → List (Fin n)) (starts : List (Fin n))
    (hne : starts ≠ []) :
    ∀ k, (∀ j, bfsLevels G starts (k + j) = bfsLevels G starts k) ∨
      k + 1 ≤ (bfsLevels G starts k).card := by
  intro k
  induction k with
  | zero =>
      right
      have : starts.toFinset.Nonempty := by
        match starts, hne with
        | s :: rest, _ => exact ⟨s, List.mem_toFinset.mpr (List.mem_cons_self s rest)⟩
      exact Finset.card_pos.mpr this
  | succ k ih =>
      rcases ih with hstab | hcard
      · left
        intro j
        have h1 := hstab 1
        have hs : bfsLevels G starts (k + 1) = bfsLevels G starts k := h1
        have := bfs_stab hs (1 + j)
        rw [show k + 1 + j = k + (1 + j) from by omega, this, ← hs]
      · by_cases hstep : bfsLevels G starts (k + 1) = bfsLevels G starts k
        · left
          intro j
          have := bfs_stab hstep j
          rw [show k + 1 + j = k + (1 + j) from by omega]
          rw [bfs_stab hstep (1 + j), ← bfs_stab hstep 1]
        · right
          have hsub : bfsLevels G starts k ⊂ bfsLevels G starts (k + 1) :=
            Finset.ssubset_iff_subset_ne.mpr
              ⟨bfs_mono_succ G starts k, fun h => hstep h.symm⟩
          have := Finset.card_lt_card hsub
          omega

theorem reach_mem_bfs_card (G : Fin n → List (Fin n)) (starts : List (Fin n))
    (hne : starts ≠ []) {v : Fin n} (h : ∃ k, v ∈ bfsLevels G starts k) :
    v ∈ bfsLevels G starts n := by
  obtain ⟨k, hk⟩ := h
  have hor := bfs_card_or G starts hne n
  have hcardle : (bfsLevels G starts n).card ≤ n := by
    have := Finset.card_le_univ (bfsLevels G starts n)
    simpa using this
  rcases hor with hstab | hcard
  · rcases Nat.lt_or_ge k n with hlt | hge
    · exact bfs_mono G starts (le_of_lt hlt) hk
    · have : bfsLevels G starts k = bfsLevels G starts n := by
        have := hstab (k - n)
        rw [show n + (k - n) = k from by omega] at this
        exact this
      rw [← this]
      exact hk
  · omega

end Day12

namespace Day12

variable {n : Nat}

/-- The state set up by the `for f in from` initialisation loop of
`astar_from_point` (`src/bin/12.rs`). -/
def initState (hf : Fin n → Nat) (starts : List (Fin n)) : AState n :=
  { gs := fun v => if v ∈ starts then 0 else UMAX,
    fs := fun v => if v ∈ starts then hf v else UMAX,
    fringe := starts.toFinset }

theorem initState_inv (G : Fin n → List (Fin n)) (hf : Fin n → Nat)
    (starts : List (Fin n)) : StInv G starts (initState hf starts) := by
  refine ⟨?_, ?_, ?_, ?_, ?_⟩
  · intro v
    unfold initState
    dsimp only
    split <;> omega
  · intro v hvlt
    unfold initState at hvlt ⊢
    dsimp only at hvlt ⊢
    split at hvlt
    · rename_i hv
      simp only [if_pos hv]
      exact ⟨v, hv, StepsTo.refl v⟩
    · omega
  · intro v hv
    unfold initState at hv ⊢
    dsimp only at hv ⊢
    rw [if_pos (List.mem_toFinset.mp hv)]
    unfold UMAX
    omega
  · intro u humem hult v hvG
    unfold initState at humem hult
    dsimp only at humem hult
    rw [if_neg (fun h => humem (List.mem_toFinset.mpr h))] at hult
    omega
  · intro v hv
    unfold initState
    dsimp only
    rw [if_pos hv]

theorem astar_correct {G : Fin n → List (Fin n)} {starts : List (Fin n)}
    (hf : Fin n → Nat)
    (sel : (st : AState n) → st.fringe.Nonempty → {x // x ∈ st.fringe})
    (hstarts : starts ≠ []) (hn : n < UMAX) (endp : Fin n)
    (hreach : ∃ k, endp ∈ bfsLevels G starts k) :
    astarLoop G hf sel (initState hf starts) endp = Nat.find hreach ∧
    IsLeast {k | ReachIn G starts endp k}
      (astarLoop G hf sel (initState hf starts) endp) := by
  have hG := astarLoop_final hf sel (initState hf starts)
    (initState_inv G hf starts)
  set gsf := astarLoop G hf sel (initState hf starts) with hgsf
  set d := Nat.find hreach with hd
  have hmemd : endp ∈ bfsLevels G starts d := Nat.find_spec hreach
  have hreachd : ReachIn G starts endp d := by
    obtain ⟨j, hj, hr⟩ := bfs_iff.mp hmemd
    have hdj : d ≤ j := Nat.find_le (bfs_iff.mpr ⟨j, le_refl j, hr⟩)
    rwa [Nat.le_antisymm hj hdj] at hr
  have hleast : IsLeast {k | ReachIn G starts endp k} d := by
    refine ⟨hreachd, ?_⟩
    intro k hk
    exact Nat.find_le (bfs_iff.mpr ⟨k, le_refl k, hk⟩)
  have hdn : d ≤ n := Nat.find_le (reach_mem_bfs_card G starts hstarts hreach)
  have hdlt : d < UMAX := lt_of_le_of_lt hdn hn
  obtain ⟨s, hs, hwalk⟩ := hreachd
  have hle : gsf endp ≤ d := gfinal_le_walk hG hs hwalk hdlt
  have hge : d ≤ gsf endp := by
    have hlt : gsf endp < UMAX := lt_of_le_of_lt hle hdlt
    exact hleast.2 (hG.2.1 endp hlt)
  have heq : gsf endp = d := Nat.le_antisymm hle hge
  exact ⟨heq, heq ▸ hleast⟩

theorem astar_unreachable {G : Fin n → List (Fin n)} {starts : List (Fin n)}
    (hf : Fin n → Nat)
    (sel : (st : AState n) → st.fringe.Nonempty → {x // x ∈ st.fringe})
    (endp : Fin n)
    (hunreach : ¬ ∃ k, endp ∈ bfsLevels G starts k) :
    astarLoop G hf sel (initState hf starts) endp = UMAX := by
  have hG := astarLoop_final hf sel (initState hf starts)
    (initState_inv G hf starts)
  by_contra hne
  have hlt : astarLoop G hf sel (initState hf starts) endp < UMAX :=
    lt_of_le_of_ne (hG.1 endp) hne
  obtain ⟨s, hs, hwalk⟩ := hG.2.1 endp hlt
  exact hunreach ⟨_, bfs_iff.mpr ⟨_, le_refl _, s, hs, hwalk⟩⟩

end Day12

namespace Day12

/-- `can_move_to` from `src/bin/12.rs`: `to.saturating_sub(from) <= 1`
(`u8` saturating subtraction is `Nat` subtraction; parameter names changed
because `from` is a Lean keyword). -/
def can_move_to (src dst : Nat) : Bool :=
  decide (dst - src ≤ 1)

/-- Embedding of `struct Map` from `src/bin/12.rs`; elevations are the `u8`
values produced by `PositionType::elevation`.  The source field `end` is a
Lean keyword and is embedded as `endIdx`. -/
structure Map where
  elevations : List Nat
  row_length : Nat
  start : Nat
  endIdx : Nat

/-- Read `self.elevations[i]` (in-range in all uses proved here). -/
def elev (m : Map) (i : Nat) : Nat :=
  m.elevations.getD i 0

/-- The `adjacent_points_for_point` closure of `Map::adjacencies`
(`src/bin/12.rs`): candidate north/east/south/west indices. -/
def adjacent_points_for_point (m : Map) (point : Nat) : List Nat :=
  [if point ≥ m.row_length then some (point - m.row_length) else none,
   if (point + 1) % m.row_length ≠ 0 then some (point + 1) else none,
   if point < m.elevations.length - m.row_length then some (point + m.row_length) else none,
   if point % m.row_length > 0 then some (point - 1) else none].filterMap id

/-- The per-point adjacency list built by `Map::adjacencies`
(`src/bin/12.rs`): candidates filtered by `can_move_to`. -/
def adjacencies (m : Map) (i : Nat) : List Nat :=
  (adjacent_points_for_point m i).filter
    (fun j => can_move_to (elev m i) (elev m j))

/-- Number of cells. -/
def mapN (m : Map) : Nat :=
  m.elevations.length

/-- The adjacency map as a graph on `Fin (mapN m)` (every listed neighbour is
in range on rectangular maps, proved below, so the `filterMap` drops
nothing). -/
def graphF (m : Map) : Fin (mapN m) → List (Fin (mapN m)) :=
  fun i => (adjacencies m i.val).filterMap
    (fun j => if h : j < mapN m then some ⟨j, h⟩ else none)

/-- `Map::point` from `src/bin/12.rs`: `(x, y) = (i % row_length, i / row_length)`. -/
def point (m : Map) (i : Nat) : Nat × Nat :=
  (i % m.row_length, i / m.row_length)

/-- `Map::manhattan_distance` from `src/bin/12.rs` (`abs_diff` is `Nat.dist`). -/
def manhattan_distance (m : Map) (a b : Nat) : Nat :=
  Nat.dist (point m a).1 (point m b).1 + Nat.dist (point m a).2 (point m b).2

/-- The heuristic `h` of `astar_from_point` (`src/bin/12.rs`). -/
def hManhattan (m : Map) : Fin (mapN m) → Nat :=
  fun i => manhattan_distance m i.val m.endIdx

/-- The pop of the source loop (`fscores.sort_by(...)` then `first`): some
fringe element with minimal `fs`; `selMin` is the canonical choice breaking
ties by least index, while the theorems quantify over every choice
function. -/
def selMin {n : Nat} (st : AState n) (hne : st.fringe.Nonempty) :
    {x // x ∈ st.fringe} :=
  let fmin := (st.fringe.image st.fs).min' (hne.image st.fs)
  let cands := st.fringe.filter (fun v => st.fs v = fmin)
  have hcne : cands.Nonempty := by
    obtain ⟨v, hv, hfv⟩ := Finset.mem_image.mp
      ((st.fringe.image st.fs).min'_mem (hne.image st.fs))
    exact ⟨v, Finset.mem_filter.mpr ⟨hv, hfv⟩⟩
  ⟨cands.min' hcne, Finset.mem_of_mem_filter _ (cands.min'_mem hcne)⟩

end Day12

namespace Day12

theorem mod_helper {rl x y : Nat} (hx : x < rl) : (y * rl + x) % rl = x := by
  rw [Nat.mul_comm, Nat.mul_add_mod]
  exact Nat.mod_eq_of_lt hx

/-- Modelled from the claim's words: a legal move from cell `i` to cell `j` of
the rectangular map: both cells in range, edge-adjacent (coordinates differing
by one in exactly one axis), and the destination elevation at most one higher
than the source elevation (any lower elevation allowed). -/
def MoveOK (m : Map) (i j : Nat) : Prop :=
  ∃ xi yi xj yj : Nat,
    xi < m.row_length ∧ xj < m.row_length ∧
    i = yi * m.row_length + xi ∧ j = yj * m.row_length + xj ∧
    i < m.elevations.length ∧ j < m.elevations.length ∧
    Nat.dist xi xj + Nat.dist yi yj = 1 ∧
    elev m j ≤ elev m i + 1

theorem mem_apfp {m : Map} {i j : Nat} :
    j ∈ adjacent_points_for_point m i ↔
      (i ≥ m.row_length ∧ j = i - m.row_length) ∨
      ((i + 1) % m.row_length ≠ 0 ∧ j = i + 1) ∨
      (i < m.elevations.length - m.row_length ∧ j = i + m.row_length) ∨
      (i % m.row_length > 0 ∧ j = i - 1) := by
  have hoption : ∀ (P : Prop) [Decidable P] (u : Nat),
      ((if P then some u else none) = some j) ↔ (P ∧ u = j) := by
    intro P _ u
    split_ifs with h
    · simp [h]
    · simp [h]
  unfold adjacent_points_for_point
  rw [List.mem_filterMap]
  constructor
  · rintro ⟨a, ha, haj⟩
    simp only [List.mem_cons, List.not_mem_nil, or_false] at ha
    simp only [id] at haj
    rcases ha with rfl | rfl | rfl | rfl
    · obtain ⟨hp, hu⟩ := (hoption _ _).mp haj
      exact Or.inl ⟨hp, hu.symm⟩
    · obtain ⟨hp, hu⟩ := (hoption _ _).mp haj
      exact Or.inr (Or.inl ⟨hp, hu.symm⟩)
    · obtain ⟨hp, hu⟩ := (hoption _ _).mp haj
      exact Or.inr (Or.inr (Or.inl ⟨hp, hu.symm⟩))
    · obtain ⟨hp, hu⟩ := (hoption _ _).mp haj
      exact Or.inr (Or.inr (Or.inr ⟨hp, hu.symm⟩))
  · rintro (⟨hp, rfl⟩ | ⟨hp, rfl⟩ | ⟨hp, rfl⟩ | ⟨hp, rfl⟩)
    · exact ⟨_, List.mem_cons_self _ _, by simp only [id]; rw [if_pos hp]⟩
    · exact ⟨_, List.mem_cons_of_mem _ (List.mem_cons_self _ _),
        by simp only [id]; rw [if_pos hp]⟩
    · exact ⟨_, List.mem_cons_of_mem _ (List.mem_cons_of_mem _ (List.mem_cons_self _ _)),
        by simp only [id]; rw [if_pos hp]⟩
    · exact ⟨_, List.mem_cons_of_mem _ (List.mem_cons_of_mem _
        (List.mem_cons_of_mem _ (List.mem_cons_self _ _))),
        by simp only [id]; rw [if_pos hp]⟩

theorem mem_adjacencies_iff {m : Map} (hrl : 0 < m.row_length)
    (hdvd : m.row_length ∣ m.elevations.length) {i j : Nat}
    (hi : i < m.elevations.length) :
    j ∈ adjacencies m i ↔ MoveOK m i j := by
  have hdecomp : i = (i / m.row_length) * m.row_length + i % m.row_length := by
    have h0 := Nat.div_add_mod i m.row_length
    calc i = m.row_length * (i / m.row_length) + i % m.row_length := h0.symm
      _ = (i / m.row_length) * m.row_length + i % m.row_length := by
          rw [Nat.mul_comm]
  have hx : i % m.row_length < m.row_length := Nat.mod_lt _ hrl
  unfold adjacencies
  rw [List.mem_filter, mem_apfp]
  have hmove : (can_move_to (elev m i) (elev m j) = true) ↔
      elev m j ≤ elev m i + 1 := by
    unfold can_move_to
    rw [decide_eq_true_eq]
    omega
  constructor
  · rintro ⟨hdir, hcm⟩
    have helev := hmove.mp hcm
    rcases hdir with ⟨hge, rfl⟩ | ⟨hmod, rfl⟩ | ⟨hlt, rfl⟩ | ⟨hpos, rfl⟩
    · have hy1 : 1 ≤ i / m.row_length := by
        by_contra hy0
        have hz : i / m.row_length = 0 := Nat.lt_one_iff.mp (Nat.not_le.mp hy0)
        rw [hz] at hdecomp
        omega
      have hbridge : (i / m.row_length) * m.row_length =
          (i / m.row_length - 1) * m.row_length + m.row_length := by
        have heq : i / m.row_length = (i / m.row_length - 1) + 1 := by omega
        calc (i / m.row_length) * m.row_length
            = ((i / m.row_length - 1) + 1) * m.row_length := by rw [← heq]
          _ = (i / m.row_length - 1) * m.row_length + m.row_length := by ring
      have hjeq : i - m.row_length =
          (i / m.row_length - 1) * m.row_length + i % m.row_length := by omega
      have hjlen : i - m.row_length < m.elevations.length := by omega
      have hdist : Nat.dist (i % m.row_length) (i % m.row_length) +
          Nat.dist (i / m.row_length) (i / m.row_length - 1) = 1 := by
        unfold Nat.dist
        omega
      exact ⟨_, _, _, _, hx, hx, hdecomp, hjeq, hi, hjlen, hdist, helev⟩
    · have hxlt : i % m.row_length + 1 < m.row_length := by
        by_contra hxe
        have hxeq : i % m.row_length + 1 = m.row_length := by omega
        have hib : i + 1 = (i / m.row_length + 1) * m.row_length := by
          have : (i / m.row_length + 1) * m.row_length =
              (i / m.row_length) * m.row_length + m.row_length := by ring
          omega
        have : (i + 1) % m.row_length = 0 := by
          rw [hib]
          exact Nat.mul_mod_left _ _
        exact hmod this
      have hjlen : i + 1 < m.elevations.length := by
        rcases Nat.lt_or_ge (i + 1) m.elevations.length with h | h
        · exact h
        · exfalso
          have hieq : i + 1 = m.elevations.length := by omega
          refine hmod ?_
          rw [hieq]
          exact (Nat.mod_eq_zero_of_dvd hdvd)
      have hjeq : i + 1 =
          (i / m.row_length) * m.row_length + (i % m.row_length + 1) := by omega
      have hdist : Nat.dist (i % m.row_length) (i % m.row_length + 1) +
          Nat.dist (i / m.row_length) (i / m.row_length) = 1 := by
        unfold Nat.dist
        omega
      exact ⟨_, _, _, _, hx, hxlt, hdecomp, hjeq, hi, hjlen, hdist, helev⟩
    · have hjlen : i + m.row_length < m.elevations.length := by omega
      have hbridge : (i / m.row_length + 1) * m.row_length =
          (i / m.row_length) * m.row_length + m.row_length := by ring
      have hjeq : i + m.row_length =
          (i / m.row_length + 1) * m.row_length + i % m.row_length := by omega
      have hdist : Nat.dist (i % m.row_length) (i % m.row_length) +
          Nat.dist (i / m.row_length) (i / m.row_length + 1) = 1 := by
        unfold Nat.dist
        omega
      exact ⟨_, _, _, _, hx, hx, hdecomp, hjeq, hi, hjlen, hdist, helev⟩
    · have hjeq : i - 1 =
          (i / m.row_length) * m.row_length + (i % m.row_length - 1) := by omega
      have hjlen : i - 1 < m.elevations.length := by omega
      have hxj : i % m.row_length - 1 < m.row_length := by omega
      have hdist : Nat.dist (i % m.row_length) (i % m.row_length - 1) +
          Nat.dist (i / m.row_length) (i / m.row_length) = 1 := by
        unfold Nat.dist
        omega
      exact ⟨_, _, _, _, hx, hxj, hdecomp, hjeq, hi, hjlen, hdist, helev⟩
  · rintro ⟨xi, yi, xj, yj, hxi, hxj, hieq, hjeq, hi', hjlen, hdist, helev⟩
    refine ⟨?_, hmove.mpr helev⟩
    have hdist' := hdist
    unfold Nat.dist at hdist'
    have hcases : (xi = xj ∧ yi = yj + 1) ∨ (xi = xj ∧ yj = yi + 1) ∨
        (yi = yj ∧ xi = xj + 1) ∨ (yi = yj ∧ xj = xi + 1) := by omega
    rcases hcases with ⟨hxx, hyy⟩ | ⟨hxx, hyy⟩ | ⟨hyy, hxx⟩ | ⟨hyy, hxx⟩
    · left
      have hb : yi * m.row_length = yj * m.row_length + m.row_length := by
        rw [hyy]
        ring
      constructor
      · omega
      · omega
    · right
      right
      left
      have hb : yj * m.row_length = yi * m.row_length + m.row_length := by
        rw [hyy]
        ring
      constructor
      · omega
      · omega
    · right
      right
      right
      have hb : yi * m.row_length = yj * m.row_length := by rw [hyy]
      have hmi : i % m.row_length = xi := by
        rw [hieq]
        exact mod_helper hxi
      constructor
      · omega
      · omega
    · right
      left
      have hb : yi * m.row_length = yj * m.row_length := by rw [hyy]
      have hmi : (i + 1) % m.row_length = xj := by
        have hstep : i + 1 = yi * m.row_length + xj := by omega
        rw [hstep]
        exact mod_helper hxj
      constructor
      · omega
      · omega

theorem mem_graphF_iff {m : Map} (hrl : 0 < m.row_length)
    (hdvd : m.row_length ∣ m.elevations.length) (i j : Fin (mapN m)) :
    j ∈ graphF m i ↔ MoveOK m i.val j.val := by
  unfold graphF
  rw [List.mem_filterMap]
  constructor
  · rintro ⟨a, ha, hfa⟩
    split_ifs at hfa with h
    have hj : (⟨a, h⟩ : Fin (mapN m)) = j := Option.some.inj hfa
    have haj : a = j.val := by rw [← hj]
    rw [← haj]
    exact (mem_adjacencies_iff hrl hdvd i.isLt).mp ha
  · intro hmv
    exact ⟨j.val, (mem_adjacencies_iff hrl hdvd i.isLt).mpr hmv, dif_pos j.isLt⟩

end Day12

namespace Day12

/-- `astar_from_point` from `src/bin/12.rs` (parametrised by the pop choice
`sel`, see `selMin`): runs the loop from the initial state and reads
`gs[map.end]`; `none` models the indexing panic for an out-of-range `end`. -/
def astar_from_point (m : Map)
    (sel : (st : AState (mapN m)) → st.fringe.Nonempty → {x // x ∈ st.fringe})
    (fromL : List (Fin (mapN m))) : Option Nat :=
  if h : m.endIdx < mapN m then
    some (astarLoop (graphF m) (hManhattan m) sel
      (initState (hManhattan m) fromL) ⟨m.endIdx, h⟩)
  else none

/-- `part_one` from `src/bin/12.rs` on an already-parsed map: runs the search
from the single start cell (`none` models the panic for an out-of-range
`start`). -/
def part_one (m : Map)
    (sel : (st : AState (mapN m)) → st.fringe.Nonempty → {x // x ∈ st.fringe}) :
    Option Nat :=
  if h : m.start < mapN m then astar_from_point m sel [⟨m.start, h⟩] else none

/-- Modelled from the claim's words: a sequence of `k` legal moves across the
map from cell `u` to cell `w`. -/
inductive GeomSteps (m : Map) : Nat → Nat → Nat → Prop
  | refl (v : Nat) : GeomSteps m v v 0
  | tail {u v w : Nat} {k : Nat} :
      GeomSteps m u v k → MoveOK m v w → GeomSteps m u w (k + 1)

theorem stepsTo_iff_geom {m : Map} (hrl : 0 < m.row_length)
    (hdvd : m.row_length ∣ m.elevations.length) :
    ∀ {s v : Fin (mapN m)} {k : Nat},
      StepsTo (graphF m) s v k ↔ GeomSteps m s.val v.val k := by
  intro s v k
  constructor
  · intro h
    induction h with
    | refl => exact GeomSteps.refl _
    | @tail v w k' hw hedge ih =>
        exact GeomSteps.tail ih ((mem_graphF_iff hrl hdvd _ _).mp hedge)
  · intro h
    have main : ∀ (a b k' : Nat), GeomSteps m a b k' →
        ∀ (ha : a < mapN m) (hb : b < mapN m),
          StepsTo (graphF m) ⟨a, ha⟩ ⟨b, hb⟩ k' := by
      intro a b k' hgeom
      induction hgeom with
      | refl =>
          intro ha hb
          exact StepsTo.refl _
      | @tail v' w' k'' hw hmv ih =>
          intro ha hb
          have hv' : v' < mapN m := by
            obtain ⟨x1, y1, x2, y2, hh1, hh2, hh3, hh4, hh5, hh6, hh7, hh8⟩ := hmv
            exact hh5
          exact StepsTo.tail (ih ha hv')
            ((mem_graphF_iff hrl hdvd ⟨v', hv'⟩ ⟨w', hb⟩).mpr hmv)
    exact main s.val v.val k h s.isLt v.isLt

theorem bfs_empty_starts {n : Nat} (G : Fin n → List (Fin n)) :
    ∀ k, bfsLevels G [] k = ∅ := by
  intro k
  induction k with
  | zero => rfl
  | succ k ih =>
      show bfsLevels G [] k ∪ _ = ∅
      rw [ih]
      rw [Finset.empty_union]
      refine Finset.filter_false_of_mem ?_
      intro v _
      rintro ⟨u, hu, -⟩
      exact absurd hu (Finset.not_mem_empty u)

end Day12

namespace Day12

/-- An alternative pop choice ignoring the f-scores entirely: the least-index
fringe element.  The correctness theorems hold for every choice, so in
particular for both `selMin` and `selFirst`. -/
def selFirst {n : Nat} (st : AState n) (hne : st.fringe.Nonempty) :
    {x // x ∈ st.fringe} :=
  ⟨st.fringe.min' hne, st.fringe.min'_mem hne⟩

/-- The 2x2 map with elevations `[0,1,1,2]`, start `0`, end `3` used to
instantiate the shortest-path theorem. -/
def c2Map : Map := ⟨[0, 1, 1, 2], 2, 0, 3⟩

/-- The 2x2 map with elevations `[0,5,5,5]`, start `0`, end `3`: every move
out of the start climbs by 5, so the end is unreachable. -/
def c10Map : Map := ⟨[0, 5, 5, 5], 2, 0, 3⟩

/-- C2: on every rectangular elevation map (positive `row_length` dividing the
cell count, fewer than `u32::MAX` cells, end cell in range) and every
non-empty start list from which the end cell is reachable, `astar_from_point`
returns exactly the breadth-first-search distance to the end (the least level
of `bfsLevels` containing it), and that value is the minimum number of legal
moves (edge-adjacent, elevation climbing at most one) of any walk from some
start cell to the end cell — for every pop-selection function, i.e. whatever
order the `HashSet` fringe is scanned in. -/
theorem day12_astar_shortest_path (m : Map)
    (sel : (st : AState (mapN m)) → st.fringe.Nonempty → {x // x ∈ st.fringe})
    (fromL : List (Fin (mapN m)))
    (hrl : 0 < m.row_length) (hdvd : m.row_length ∣ m.elevations.length)
    (hn : mapN m < UMAX) (hne : fromL ≠ []) (hend : m.endIdx < mapN m)
    (hreach : ∃ k, (⟨m.endIdx, hend⟩ : Fin (mapN m)) ∈
      bfsLevels (graphF m) fromL k) :
    astar_from_point m sel fromL = some (Nat.find hreach) ∧
    IsLeast {k | ∃ s ∈ fromL, GeomSteps m s.val m.endIdx k}
      (Nat.find hreach) := by
  have hc := astar_correct (hManhattan m) sel hne hn
    (⟨m.endIdx, hend⟩ : Fin (mapN m)) hreach
  have hsets :
      {k | ReachIn (graphF m) fromL (⟨m.endIdx, hend⟩ : Fin (mapN m)) k} =
      {k | ∃ s ∈ fromL, GeomSteps m s.val m.endIdx k} := by
    ext k
    simp only [Set.mem_setOf_eq, ReachIn]
    constructor
    · rintro ⟨s, hs, hst⟩
      exact ⟨s, hs, (stepsTo_iff_geom hrl hdvd).mp hst⟩
    · rintro ⟨s, hs, hg⟩
      exact ⟨s, hs, (stepsTo_iff_geom hrl hdvd).mpr hg⟩
  constructor
  · unfold astar_from_point
    rw [dif_pos hend, hc.1]
  · rw [← hsets]
    exact hc.1 ▸ hc.2

/-- Witness for C2: on `c2Map` with start cell `0`, the search returns `2`,
and `2` is the least walk length to the end cell. -/
theorem day12_astar_shortest_path_witness :
    astar_from_point c2Map selMin [⟨0, by decide⟩] = some 2 ∧
    IsLeast {k | ∃ s ∈ ([⟨0, by decide⟩] : List (Fin (mapN c2Map))),
      GeomSteps c2Map s.val c2Map.endIdx k} 2 := by
  have hreach : ∃ k, (⟨c2Map.endIdx, by decide⟩ : Fin (mapN c2Map)) ∈
      bfsLevels (graphF c2Map) [⟨0, by decide⟩] k := ⟨2, by decide⟩
  have h := day12_astar_shortest_path c2Map selMin [⟨0, by decide⟩]
    (by decide) (by decide) (by decide) (by decide) (by decide) hreach
  have hfind : Nat.find hreach = 2 := by
    rw [Nat.find_eq_iff]
    refine ⟨by decide, ?_⟩
    intro mm hmm
    interval_cases mm <;> decide
  rw [hfind] at h
  exact h

/-- C8: day 12's answer is deterministic in spite of the unordered `HashSet`
fringe: for any two pop-selection functions (modelling two runs whose
tie-breaking among equal f-scores differs), `astar_from_point` and `part_one`
return identical results on the same parsed map with fewer than `u32::MAX`
cells. -/
theorem day12_part_one_deterministic (m : Map)
    (sel1 sel2 : (st : AState (mapN m)) → st.fringe.Nonempty →
      {x // x ∈ st.fringe})
    (fromL : List (Fin (mapN m))) (hn : mapN m < UMAX) :
    astar_from_point m sel1 fromL = astar_from_point m sel2 fromL ∧
    part_one m sel1 = part_one m sel2 := by
  have key : ∀ (L : List (Fin (mapN m))),
      astar_from_point m sel1 L = astar_from_point m sel2 L := by
    intro L
    unfold astar_from_point
    by_cases hend : m.endIdx < mapN m
    · rw [dif_pos hend, dif_pos hend]
      rcases eq_or_ne L [] with hL | hL
      · subst hL
        have hun : ¬ ∃ k, (⟨m.endIdx, hend⟩ : Fin (mapN m)) ∈
            bfsLevels (graphF m) [] k := by
          rintro ⟨k, hk⟩
          rw [bfs_empty_starts] at hk
          exact absurd hk (Finset.not_mem_empty _)
        rw [astar_unreachable (hManhattan m) sel1 _ hun,
            astar_unreachable (hManhattan m) sel2 _ hun]
      · by_cases hreach : ∃ k, (⟨m.endIdx, hend⟩ : Fin (mapN m)) ∈
            bfsLevels (graphF m) L k
        · rw [(astar_correct (hManhattan m) sel1 hL hn _ hreach).1,
              (astar_correct (hManhattan m) sel2 hL hn _ hreach).1]
        · rw [astar_unreachable (hManhattan m) sel1 _ hreach,
              astar_unreachable (hManhattan m) sel2 _ hreach]
    · rw [dif_neg hend, dif_neg hend]
  refine ⟨key fromL, ?_⟩
  unfold part_one
  by_cases hs : m.start < mapN m
  · rw [dif_pos hs, dif_pos hs]
    exact key _
  · rw [dif_neg hs, dif_neg hs]

/-- Witness for C8: on `c2Map`, popping by least f-score (`selMin`) and
popping by least index regardless of f-score (`selFirst`) give the same
results. -/
theorem day12_part_one_deterministic_witness :
    astar_from_point c2Map selMin [⟨0, by decide⟩] =
      astar_from_point c2Map selFirst [⟨0, by decide⟩] ∧
    part_one c2Map selMin = part_one c2Map selFirst :=
  day12_part_one_deterministic c2Map selMin selFirst
    [⟨0, by decide⟩] (by decide)

/-- C10: an unreachable goal yields the `u32::MAX` sentinel rather than a
panic: on a rectangular map with the end cell in range, if no sequence of
legal moves joins any supplied start cell to the end cell, then
`astar_from_point` terminates normally and returns `Some(u32::MAX)` (the
never-relaxed initial g-score of the end), and when the start list is the
singleton start cell, `part_one` likewise returns `Some(u32::MAX)`. -/
theorem day12_unreachable_sentinel (m : Map)
    (sel : (st : AState (mapN m)) → st.fringe.Nonempty → {x // x ∈ st.fringe})
    (fromL : List (Fin (mapN m)))
    (hrl : 0 < m.row_length) (hdvd : m.row_length ∣ m.elevations.length)
    (hend : m.endIdx < mapN m)
    (hunreach : ¬ ∃ k, ∃ s ∈ fromL, GeomSteps m s.val m.endIdx k) :
    astar_from_point m sel fromL = some UMAX ∧
    ∀ (hstart : m.start < mapN m), fromL = [⟨m.start, hstart⟩] →
      part_one m sel = some UMAX := by
  have hun' : ¬ ∃ k, (⟨m.endIdx, hend⟩ : Fin (mapN m)) ∈
      bfsLevels (graphF m) fromL k := by
    rintro ⟨k, hk⟩
    obtain ⟨j, hj, s, hs, hst⟩ := bfs_iff.mp hk
    exact hunreach ⟨j, s, hs, (stepsTo_iff_geom hrl hdvd).mp hst⟩
  have h1 : astar_from_point m sel fromL = some UMAX := by
    unfold astar_from_point
    rw [dif_pos hend, astar_unreachable (hManhattan m) sel _ hun']
  refine ⟨h1, ?_⟩
  intro hstart hL
  unfold part_one
  rw [dif_pos hstart, ← hL]
  exact h1

/-- Witness for C10: on `c10Map` (every neighbour of the start is 5 higher,
the end is unreachable) both functions return the sentinel
`u32::MAX = 4294967295`. -/
theorem day12_unreachable_sentinel_witness :
    astar_from_point c10Map selMin [⟨0, by decide⟩] = some UMAX ∧
    part_one c10Map selMin = some UMAX := by
  have hunreach : ¬ ∃ k, ∃ s ∈ ([⟨0, by decide⟩] : List (Fin (mapN c10Map))),
      GeomSteps c10Map s.val c10Map.endIdx k := by
    rintro ⟨k, s, hs, hg⟩
    have hst : StepsTo (graphF c10Map) s ⟨c10Map.endIdx, by decide⟩ k :=
      (stepsTo_iff_geom (by decide) (by decide)).mpr hg
    have hmem : (⟨c10Map.endIdx, by decide⟩ : Fin (mapN c10Map)) ∈
        bfsLevels (graphF c10Map) [⟨0, by decide⟩] (mapN c10Map) :=
      reach_mem_bfs_card _ _ (by decide)
        ⟨k, bfs_iff.mpr ⟨k, le_refl k, s, hs, hst⟩⟩
    exact absurd hmem (by decide)
  have h := day12_unreachable_sentinel c10Map selMin [⟨0, by decide⟩]
    (by decide) (by decide) (by decide) hunreach
  exact ⟨h.1, h.2 (by decide) rfl⟩

end Day12
